import Mathlib

/-!
# Verification of the axon-go core indexing and query engine

This file contains a shallow embedding, in Lean 4, of the parts of the
axon-go repository that its natural-language specification talks about:

* the ingestion pipeline orchestrator (`internal/ingestion/pipeline.go`),
* the in-memory knowledge graph with its secondary indexes
  (`internal/graph/graph.go`),
* the seven-pass dead-code detector (`internal/ingestion`, dead-code file),
* the repository walker (`internal/ingestion/walker.go`),
* hybrid search with Reciprocal Rank Fusion and cosine similarity
  (`internal/storage/hybrid_search.go`),
* the TF-IDF embedder (`internal/embeddings`),
* the BadgerDB-backed `Traverse` BFS (`internal/storage`).

Go maps are modelled as association lists (`List (key × value)`); Go's
nondeterministic map-iteration order is determinized to list order, which
is a sound determinization for every property proved below.  Machine
floats (`float32` / `float64`) are modelled by `ℝ` where transcendental
functions are involved (`math.Sqrt`, `math.Log`) and by `ℚ` where only
field arithmetic is involved (RRF score accumulation).  Each definition
mirrors the correspondingly named Go function.
-/

set_option maxRecDepth 10000

namespace Axon

/-! ## String helpers

These model `strings.HasPrefix`, `strings.HasSuffix` and
`strings.Contains` from the Go standard library, operating on the
character lists of the strings. -/

/-- `charsStart p t` is true when the character list `t` starts with `p`.
Models the comparison underlying `strings.HasPrefix`. -/
def charsStart : List Char → List Char → Bool
  | [], _ => true
  | _ :: _, [] => false
  | a :: as, b :: bs => a = b && charsStart as bs

/-- `charsContain t p` is true when `p` occurs contiguously inside `t`.
Models the search underlying `strings.Contains`. -/
def charsContain : List Char → List Char → Bool
  | [], p => p.isEmpty
  | t@(_ :: rest), p => charsStart p t || charsContain rest p

/-- `strStarts s p` models Go `strings.HasPrefix(s, p)`. -/
def strStarts (s p : String) : Bool := charsStart p.data s.data

/-- `strEnds s p` models Go `strings.HasSuffix(s, p)`. -/
def strEnds (s p : String) : Bool := charsStart p.data.reverse s.data.reverse

/-- `strContains s sub` models Go `strings.Contains(s, sub)`. -/
def strContains (s sub : String) : Bool := charsContain s.data sub.data

/-! ## Graph data model

Mirrors `GraphNode`, `GraphRelationship`, `NodeLabel` and `RelType`
from the graph package (node/relationship model file). Labels and
relationship types are Go string types, so they are plain `String`s
here, with the same constant values. -/

/-- A dynamically typed property value, modelling the `any` values stored
in the `Properties map[string]any` of nodes and relationships.  Only the
variants actually stored by the embedded code are modelled: strings,
booleans and numbers (numbers modelled as `ℚ`). -/
inductive PropVal where
  | str (s : String)
  | bool (b : Bool)
  | num (q : ℚ)
deriving DecidableEq

/-- Node label constants, mirroring the `NodeLabel` constants. -/
def NodeFile : String := "file"

def NodeFolder : String := "folder"

def NodeFunction : String := "function"

def NodeClass : String := "class"

def NodeMethod : String := "method"

def NodeInterface : String := "interface"

def NodeTypeAlias : String := "type_alias"

def NodeEnum : String := "enum"

def NodeCommunity : String := "community"

def NodeProcess : String := "process"

/-- Relationship type constants, mirroring the `RelType` constants. -/
def RelContains : String := "contains"

def RelDefines : String := "defines"

def RelCalls : String := "calls"

def RelImports : String := "imports"

def RelExtends : String := "extends"

def RelImplements : String := "implements"

def RelMemberOf : String := "member_of"

def RelStepInProcess : String := "step_in_process"

def RelUsesType : String := "uses_type"

def RelExports : String := "exports"

def RelCoupledWith : String := "coupled_with"

/-- Mirrors `GraphNode`.  `Properties map[string]any` is modelled as an
association list.  The `Decorators` field is omitted (never read by any
function embedded here). -/
structure GraphNode where
  id : String
  label : String
  name : String
  filePath : String
  startLine : Nat := 0
  endLine : Nat := 0
  content : String := ""
  signature : String := ""
  language : String := ""
  className : String := ""
  isDead : Bool := false
  isEntryPoint : Bool := false
  isExported : Bool := false
  properties : List (String × PropVal) := []
deriving DecidableEq

/-- Mirrors `GraphRelationship`. -/
structure GraphRelationship where
  id : String
  type : String
  source : String
  target : String
  properties : List (String × PropVal) := []
deriving DecidableEq

/-- Go `m[k] = v` on a `map[string]T` modelled on an association list:
replace the value if the key is present, append otherwise. -/
def aset {V : Type} (m : List (String × V)) (k : String) (v : V) : List (String × V) :=
  if m.any (fun p => p.1 = k) then
    m.map (fun p => if p.1 = k then (k, v) else p)
  else m ++ [(k, v)]

/-- Go `delete(m, k)` on an association list. -/
def adel {V : Type} (m : List (String × V)) (k : String) : List (String × V) :=
  m.filter (fun p => p.1 ≠ k)

/-- Go `m[k]` with the `ok` flag on an association list. -/
def alookup {V : Type} (m : List (String × V)) (k : String) : Option V :=
  match m with
  | [] => none
  | p :: rest => if p.1 = k then some p.2 else alookup rest k

/-! ## C1 : pipeline phase ordering (`RunPipeline`, pipeline.go)

`RunPipeline` is straight-line sequential code; its observable phase
structure is embedded as the trace of events it produces.  Each phase
call and each progress-callback invocation becomes one event, listed in
the exact statement order of the function body. -/

/-- One observable event of a `RunPipeline` run: a progress callback at
a phase start (progress 0.0), at a phase end (progress 1.0), or the
(synchronous) execution of a phase body. -/
inductive PipelineEvent where
  | progressStart (phase : String)
  | progressEnd (phase : String)
  | phase (name : String)
deriving DecidableEq

/-- Helper for the conditional progress callbacks: `RunPipeline` invokes
`progress` only when the callback is non-nil. -/
def progressEvent (hasProgress : Bool) (e : PipelineEvent) : List PipelineEvent :=
  if hasProgress then [e] else []

/-- The trace of `RunPipeline(ctx, repoPath, store, full, progress, embeddings)`,
with events listed in the statement order of the function body in
`pipeline.go`.  `prog` is whether the progress callback is non-nil,
`emb` is the `embeddings` flag, `store` is whether a storage backend is
passed. -/
def runPipelineEvents (prog emb store : Bool) : List PipelineEvent :=
  progressEvent prog (.progressStart "Walking files") ++ [.phase "WalkRepo"] ++
    progressEvent prog (.progressEnd "Walking files") ++
  progressEvent prog (.progressStart "Processing structure") ++ [.phase "ProcessStructure"] ++
    progressEvent prog (.progressEnd "Processing structure") ++
  progressEvent prog (.progressStart "Parsing code") ++ [.phase "ProcessParsing"] ++
    progressEvent prog (.progressEnd "Parsing code") ++
  progressEvent prog (.progressStart "Resolving imports") ++ [.phase "ProcessImports"] ++
    progressEvent prog (.progressEnd "Resolving imports") ++
  progressEvent prog (.progressStart "Tracing calls") ++ [.phase "ProcessCalls"] ++
    progressEvent prog (.progressEnd "Tracing calls") ++
  progressEvent prog (.progressStart "Extracting heritage") ++ [.phase "ProcessHeritage"] ++
    progressEvent prog (.progressEnd "Extracting heritage") ++
  progressEvent prog (.progressStart "Analyzing types") ++ [.phase "ProcessTypes"] ++
    progressEvent prog (.progressEnd "Analyzing types") ++
  progressEvent prog (.progressStart "Detecting execution flows") ++ [.phase "ProcessProcesses"] ++
    progressEvent prog (.progressEnd "Detecting execution flows") ++
  progressEvent prog (.progressStart "Detecting communities") ++ [.phase "DetectCommunities"] ++
    progressEvent prog (.progressEnd "Detecting communities") ++
  progressEvent prog (.progressStart "Analyzing git history") ++ [.phase "ProcessCoupling"] ++
    progressEvent prog (.progressEnd "Analyzing git history") ++
  progressEvent prog (.progressStart "Detecting dead code") ++ [.phase "ProcessDeadCode"] ++
    progressEvent prog (.progressEnd "Detecting dead code") ++
  progressEvent (emb && prog) (.progressStart "Generating embeddings") ++
  (if emb then [.phase "GenerateAndStoreEmbeddings"] else []) ++
  progressEvent (emb && prog) (.progressEnd "Generating embeddings") ++
  (if store then
    progressEvent prog (.progressStart "Loading to storage") ++ [.phase "BulkLoad"] ++
      progressEvent prog (.progressEnd "Loading to storage")
   else [])

/-- The names of the phase bodies executed by a run, in execution order
(the projection of the trace to `phase` events). -/
def runPipelinePhases (prog emb store : Bool) : List String :=
  (runPipelineEvents prog emb store).filterMap fun e =>
    match e with
    | .phase n => some n
    | _ => none

/-- C1 (counterexample): in the trace of `RunPipeline` (progress callback
present, embeddings on, store present), execution-flow detection
(`ProcessProcesses`, phase 9) completes — including its end-of-phase
progress callback — strictly before community detection
(`DetectCommunities`, phase 8) starts, and git-coupling analysis
(`ProcessCoupling`, phase 11) completes strictly before dead-code
detection (`ProcessDeadCode`, phase 10) starts.  This refutes the claim
that phase 8 completes before phase 9 and phase 10 before phase 11. -/
theorem C1_counterexample :
    (PipelineEvent.phase "ProcessProcesses") ∈ runPipelineEvents true true true ∧
    (PipelineEvent.phase "DetectCommunities") ∈ runPipelineEvents true true true ∧
    (runPipelineEvents true true true).indexOf (.progressEnd "Detecting execution flows") <
      (runPipelineEvents true true true).indexOf (.progressStart "Detecting communities") ∧
    (runPipelineEvents true true true).indexOf (.progressEnd "Analyzing git history") <
      (runPipelineEvents true true true).indexOf (.progressStart "Detecting dead code") ∧
    (runPipelineEvents true true true).indexOf (.phase "ProcessProcesses") <
      (runPipelineEvents true true true).indexOf (.phase "DetectCommunities") ∧
    (runPipelineEvents true true true).indexOf (.phase "ProcessCoupling") <
      (runPipelineEvents true true true).indexOf (.phase "ProcessDeadCode") := by
  decide

/-- C1 (amended): `RunPipeline` executes the phase bodies strictly
sequentially — each phase returns before the next starts — but in the
order 1–7, then 9 (execution flows), 8 (communities), 11 (git coupling),
10 (dead code), 12 (embeddings, when enabled), followed by the bulk load
into storage (when a store is present).  The phase-execution projection
of the trace is exactly this sequence, for every combination of the
progress / embeddings / store flags. -/
theorem C1_amended (prog emb store : Bool) :
    runPipelinePhases prog emb store =
      ["WalkRepo", "ProcessStructure", "ProcessParsing", "ProcessImports",
       "ProcessCalls", "ProcessHeritage", "ProcessTypes",
       "ProcessProcesses", "DetectCommunities",
       "ProcessCoupling", "ProcessDeadCode"] ++
      (if emb then ["GenerateAndStoreEmbeddings"] else []) ++
      (if store then ["BulkLoad"] else []) := by
  cases prog <;> cases emb <;> cases store <;> decide

/-! ## C10 : `BadgerBackend.Traverse` direction handling (storage backend)

The persistent store is modelled as the set of node records (under the
`n:` prefix) and relationship records (under the `r:` prefix); the
adjacency-index scans of `GetCallers` / `GetCallees` are modelled as
filters over the relationships with the documented silent skip of
missing endpoints. -/

/-- The persisted content of a `BadgerBackend`: node records and
relationship records. -/
structure Store where
  nodes : List GraphNode
  rels : List GraphRelationship

/-- Mirrors `BadgerBackend.getNode`: fetch a node by ID, `none` when the
key is absent. -/
def storeGetNode (s : Store) (nodeID : String) : Option GraphNode :=
  s.nodes.find? fun n => n.id = nodeID

/-- Mirrors `BadgerBackend.GetCallers`: scan the incoming `calls`
adjacency entries of `nodeID`, fetch each relationship and its source
node, silently skipping entries whose node is missing. -/
def storeGetCallers (s : Store) (nodeID : String) : List GraphNode :=
  s.rels.filterMap fun r =>
    if r.type = RelCalls ∧ r.target = nodeID then storeGetNode s r.source else none

/-- Mirrors `BadgerBackend.GetCallees`: scan the outgoing `calls`
adjacency entries of `nodeID`, fetch each relationship and its target
node, silently skipping entries whose node is missing. -/
def storeGetCallees (s : Store) (nodeID : String) : List GraphNode :=
  s.rels.filterMap fun r =>
    if r.type = RelCalls ∧ r.source = nodeID then storeGetNode s r.target else none

/-- A BFS queue entry of `Traverse` (`traversalItem` in the Go code). -/
structure TraversalItem where
  nodeID : String
  depth : Nat
deriving DecidableEq

/-- The BFS loop body of `BadgerBackend.Traverse`, with explicit fuel
standing in for the (always terminating) Go `for len(queue) > 0` loop.
`maxDepth` is the already clamped depth bound. -/
def traverseLoop (s : Store) (startID : String) (maxDepth : Nat) (direction : String) :
    Nat → List TraversalItem → List String → List GraphNode → List GraphNode
  | 0, _, _, result => result
  | _ + 1, [], _, result => result
  | fuel + 1, current :: queue, visited, result =>
    if current.nodeID ∈ visited then
      traverseLoop s startID maxDepth direction fuel queue visited result
    else
      let visited' := visited ++ [current.nodeID]
      let result' :=
        if current.nodeID = startID then result
        else
          match storeGetNode s current.nodeID with
          | some n => result ++ [n]
          | none => result
      if current.depth < maxDepth then
        let neighbors :=
          if direction = "callers" then storeGetCallers s current.nodeID
          else storeGetCallees s current.nodeID
        let queue' := queue ++
          (neighbors.filter fun nb => nb.id ∉ visited').map
            fun nb => TraversalItem.mk nb.id (current.depth + 1)
        traverseLoop s startID maxDepth direction fuel queue' visited' result'
      else
        traverseLoop s startID maxDepth direction fuel queue visited' result'

/-- Fuel sufficient for the BFS to run to completion: at most
`nodes + 1` queue items are ever expanded (each expansion visits a new
ID), each enqueuing at most `rels` further items. -/
def traverseFuel (s : Store) : Nat :=
  (s.nodes.length + 1) * (s.rels.length + 1) + 1

/-- Mirrors `BadgerBackend.Traverse`: clamp the requested depth at 10,
run the BFS from `startID`, excluding the start node from the results.
The `Except` wrapper mirrors the Go `([]*graph.GraphNode, error)` return;
the function always returns a nil error. -/
def storeTraverse (s : Store) (startID : String) (depth : Nat) (direction : String) :
    Except String (List GraphNode) :=
  .ok (traverseLoop s startID (if depth > 10 then 10 else depth) direction (traverseFuel s)
        [TraversalItem.mk startID 0] [] [])

theorem traverseLoop_direction (s : Store) (startID : String) (maxDepth : Nat)
    (direction : String) (h : direction ≠ "callers") :
    ∀ fuel queue visited result,
      traverseLoop s startID maxDepth direction fuel queue visited result =
        traverseLoop s startID maxDepth "callees" fuel queue visited result := by
  intro fuel
  induction fuel with
  | zero => intro queue visited result; rfl
  | succ n ih =>
    intro queue visited result
    cases queue with
    | nil => rfl
    | cons current rest =>
      simp only [traverseLoop]
      by_cases hv : current.nodeID ∈ visited
      · simp only [if_pos hv, ih]
      · simp only [if_neg hv]
        by_cases hd : current.depth < maxDepth
        · simp only [if_pos hd, if_neg h, ih]
          have hcallees : ("callees" : String) ≠ "callers" := by decide
          simp only [if_neg hcallees]
        · simp only [if_neg hd, ih]

/-- C10: for every direction string other than `"callers"` (for example
`"callees"`, the empty string, or any unrecognised value),
`BadgerBackend.Traverse` expands along outgoing `calls` edges exactly as
it does for `"callees"`, and it never reports the unrecognised direction
as an error: the result is always an `ok` value. -/
theorem C10_traverse_default_callees (s : Store) (startID : String) (depth : Nat)
    (direction : String) (h : direction ≠ "callers") :
    storeTraverse s startID depth direction = storeTraverse s startID depth "callees" ∧
    (storeTraverse s startID depth direction).isOk = true := by
  refine ⟨?_, rfl⟩
  unfold storeTraverse
  rw [traverseLoop_direction s startID _ direction h]

/-- A node with only the identifying fields set, remaining fields at
their Go zero values. -/
def mkNode (id label name filePath : String) : GraphNode :=
  { id := id, label := label, name := name, filePath := filePath }

/-- A relationship with no properties. -/
def mkRel (id type source target : String) : GraphRelationship :=
  { id := id, type := type, source := source, target := target }

/-- Witness for C10 at a concrete store and an unrecognised direction. -/
theorem C10_witness :
    ("sideways" : String) ≠ "callers" ∧
    storeTraverse (Store.mk [mkNode "a" "function" "a" "a.go",
                             mkNode "b" "function" "b" "b.go"]
                            [mkRel "c1" "calls" "a" "b"])
        "a" 5 "sideways" =
      storeTraverse (Store.mk [mkNode "a" "function" "a" "a.go",
                               mkNode "b" "function" "b" "b.go"]
                              [mkRel "c1" "calls" "a" "b"])
        "a" 5 "callees" :=
  ⟨by decide,
   (C10_traverse_default_callees _ "a" 5 "sideways" (by decide)).1⟩

/-! ## C8 : `CosineSimilarity` (hybrid_search.go)

The `float64` arithmetic of the Go function, including `math.Sqrt`, is
modelled over `ℝ`. -/

/-- The accumulated `dotProduct` of the Go loop. -/
def dotProduct (a b : List ℝ) : ℝ :=
  ((a.zip b).map fun p => p.1 * p.2).sum

/-- The accumulated `normA` / `normB` of the Go loop (the sum of squared
components). -/
def sumSquares (a : List ℝ) : ℝ :=
  (a.map fun x => x * x).sum

/-- Mirrors `CosineSimilarity(a, b []float32) float64`: zero for
mismatched lengths, empty input, or a zero vector on either side;
otherwise the dot product divided by the product of the Euclidean
norms. -/
noncomputable def cosineSimilarity (a b : List ℝ) : ℝ :=
  if a.length ≠ b.length ∨ a.length = 0 then 0
  else if sumSquares a = 0 ∨ sumSquares b = 0 then 0
  else dotProduct a b / (Real.sqrt (sumSquares a) * Real.sqrt (sumSquares b))

theorem sumSquares_nonneg (a : List ℝ) : 0 ≤ sumSquares a := by
  apply List.sum_nonneg
  intro x hx
  simp only [List.mem_map] at hx
  obtain ⟨y, _, rfl⟩ := hx
  exact mul_self_nonneg y

theorem dotProduct_self (v : List ℝ) : dotProduct v v = sumSquares v := by
  induction v with
  | nil => rfl
  | cons x xs ih =>
    simp only [dotProduct, sumSquares, List.zip_cons_cons, List.map_cons, List.sum_cons] at *
    rw [ih]

theorem sumSquares_smul (c : ℝ) (v : List ℝ) :
    sumSquares (v.map fun x => c * x) = c ^ 2 * sumSquares v := by
  induction v with
  | nil => simp [sumSquares]
  | cons x xs ih =>
    simp only [sumSquares, List.map_cons, List.sum_cons] at *
    rw [ih]; ring

theorem dotProduct_smul_left (c : ℝ) (v : List ℝ) :
    dotProduct (v.map fun x => c * x) v = c * sumSquares v := by
  induction v with
  | nil => simp [dotProduct, sumSquares]
  | cons x xs ih =>
    simp only [dotProduct, sumSquares, List.map_cons, List.zip_cons_cons,
      List.sum_cons] at *
    rw [ih]; ring

theorem sumSquares_ne_zero_length {v : List ℝ} (hv : sumSquares v ≠ 0) :
    v.length ≠ 0 := by
  intro h
  apply hv
  cases v with
  | nil => rfl
  | cons x xs => simp at h

theorem cosine_smul_general (v : List ℝ) (hv : sumSquares v ≠ 0) (c : ℝ) (hc : c ≠ 0) :
    cosineSimilarity (v.map fun x => c * x) v = c / |c| := by
  have hlen : v.length ≠ 0 := sumSquares_ne_zero_length hv
  have hpos : 0 < sumSquares v := lt_of_le_of_ne (sumSquares_nonneg v) (Ne.symm hv)
  have hc2 : c ^ 2 * sumSquares v ≠ 0 := by positivity
  rw [cosineSimilarity, if_neg (by simp [hlen]), sumSquares_smul, dotProduct_smul_left,
    if_neg (by push_neg; exact ⟨hc2, hv⟩)]
  rw [show c ^ 2 * sumSquares v = (|c|) ^ 2 * sumSquares v by rw [sq_abs]]
  rw [Real.sqrt_mul (by positivity), Real.sqrt_sq (abs_nonneg c)]
  have h1 : |c| * Real.sqrt (sumSquares v) * Real.sqrt (sumSquares v) =
      |c| * sumSquares v := by
    rw [mul_assoc, Real.mul_self_sqrt (le_of_lt hpos)]
  rw [h1]
  have habs : |c| ≠ 0 := abs_ne_zero.mpr hc
  field_simp
  ring

theorem cosine_self_eq_one (v : List ℝ) (hv : sumSquares v ≠ 0) :
    cosineSimilarity v v = 1 := by
  have hlen : v.length ≠ 0 := sumSquares_ne_zero_length hv
  have hpos : 0 < sumSquares v := lt_of_le_of_ne (sumSquares_nonneg v) (Ne.symm hv)
  rw [cosineSimilarity, if_neg (by simp [hlen]), if_neg (by simp [hv]),
    dotProduct_self, Real.mul_self_sqrt (le_of_lt hpos), div_self hv]

theorem cosine_opposite_eq_neg_one (v : List ℝ) (hv : sumSquares v ≠ 0) :
    cosineSimilarity (v.map fun x => -x) v = -1 := by
  have h2 : (v.map fun x => -x) = v.map fun x => (-1 : ℝ) * x := by simp
  rw [h2, cosine_smul_general v hv (-1) (by norm_num)]
  norm_num

theorem cosine_dot_zero (a b : List ℝ) (hab : dotProduct a b = 0) :
    cosineSimilarity a b = 0 := by
  rw [cosineSimilarity]
  by_cases h1 : a.length ≠ b.length ∨ a.length = 0
  · rw [if_pos h1]
  · rw [if_neg h1]
    by_cases h2 : sumSquares a = 0 ∨ sumSquares b = 0
    · rw [if_pos h2]
    · rw [if_neg h2, hab, zero_div]

/-- C8 (amended): `CosineSimilarity` returns exactly 1 for identical
non-zero vectors, 0 whenever the dot product is 0 (in particular for
orthogonal vectors), −1 for opposite vectors, and 1 for any *positive*
scalar multiple `c·v` of a non-zero vector `v` against `v`.  (Exact
values imply the `±ε` tolerances of the specification.) -/
theorem C8_cosine_amended (v : List ℝ) (hv : sumSquares v ≠ 0) :
    cosineSimilarity v v = 1 ∧
    cosineSimilarity (v.map fun x => -x) v = -1 ∧
    (∀ c : ℝ, 0 < c → cosineSimilarity (v.map fun x => c * x) v = 1) ∧
    (∀ a b : List ℝ, dotProduct a b = 0 → cosineSimilarity a b = 0) := by
  refine ⟨cosine_self_eq_one v hv, cosine_opposite_eq_neg_one v hv, ?_,
    cosine_dot_zero⟩
  intro c hc
  rw [cosine_smul_general v hv c (ne_of_gt hc), abs_of_pos hc, div_self (ne_of_gt hc)]

/-- Witness for C8 at the concrete non-zero vector `[1]`. -/
theorem C8_witness :
    sumSquares [(1 : ℝ)] ≠ 0 ∧
    cosineSimilarity [(1 : ℝ)] [(1 : ℝ)] = 1 := by
  have h : sumSquares [(1 : ℝ)] ≠ 0 := by
    simp [sumSquares]
  exact ⟨h, (C8_cosine_amended [1] h).1⟩

/-- C8 (counterexample): the claim quantifies over *any* scalar `c`; at
`c = −1` and `v = [1]`, `CosineSimilarity(c·v, v)` is −1, at distance 2
from 1, hence not within any reasonable ε of 1.0. -/
theorem C8_counterexample :
    cosineSimilarity ([(1 : ℝ)].map fun x => (-1) * x) [(1 : ℝ)] = -1 ∧
    |cosineSimilarity ([(1 : ℝ)].map fun x => (-1) * x) [(1 : ℝ)] - 1| = 2 := by
  have h1 : sumSquares [(1 : ℝ)] ≠ 0 := by simp [sumSquares]
  have h3 := cosine_smul_general [(1 : ℝ)] h1 (-1) (by norm_num)
  rw [h3]
  norm_num

/-! ## Dead-code detection (`ProcessDeadCode`, ingestion package)

The in-memory knowledge graph, as consumed by the dead-code passes, is
modelled by its node list and relationship list.  The accessors below
mirror the `KnowledgeGraph` methods used by the passes
(`HasIncoming`, `GetOutgoing`, `GetNode`); in `graph.go` these are
answered from the adjacency indexes, which the graph keeps exactly in
sync with the relationship map, so they are filters over the
relationship set.  Go's pointer-based in-place node mutation becomes a
by-ID functional update; Go's nondeterministic map-iteration order is
determinized to list order. -/

/-- The in-memory graph as seen by the analysis passes. -/
structure DGraph where
  nodes : List GraphNode
  rels : List GraphRelationship
deriving DecidableEq

/-- Mirrors `KnowledgeGraph.GetNode`. -/
def DGraph.getNode (g : DGraph) (id : String) : Option GraphNode :=
  g.nodes.find? fun n => n.id == id

/-- Mirrors `KnowledgeGraph.HasIncoming`. -/
def DGraph.hasIncoming (g : DGraph) (id t : String) : Bool :=
  g.rels.any fun r => r.target == id && r.type == t

/-- Mirrors `KnowledgeGraph.GetOutgoing` with a type filter. -/
def DGraph.getOutgoing (g : DGraph) (id t : String) : List GraphRelationship :=
  g.rels.filter fun r => r.source == id && r.type == t

/-- Read a node property (Go `node.Properties[k]` with the `ok` flag). -/
def getProp (n : GraphNode) (k : String) : Option PropVal :=
  alookup n.properties k

/-- Set a node property (Go `node.Properties[k] = v`, allocating the map
if nil). -/
def setProp (n : GraphNode) (k : String) (v : PropVal) : GraphNode :=
  { n with properties := aset n.properties k v }

/-- Apply `f` to the node with the given ID (Go mutates the node in
place through the pointer returned by `GetNode`; node IDs key the node
map, so exactly the nodes with this ID are affected).  A no-op when the
ID is absent, mirroring the `callee != nil` guards. -/
def mapById (g : DGraph) (id : String) (f : GraphNode → GraphNode) : DGraph :=
  { g with nodes := g.nodes.map fun n => if n.id == id then f n else n }

/-- Mirrors `hasDynamicDispatch`: the `has_dynamic_dispatch` property is
boolean `true`, or the node sits in a `server.go` file and has `handle`
in its name. -/
def hasDynamicDispatch (n : GraphNode) : Bool :=
  (match getProp n "has_dynamic_dispatch" with
   | some (.bool true) => true
   | _ => false) ||
  (strContains n.filePath "server.go" && strContains n.name "handle")

/-- Mirrors `hasSwitchDispatch`: the `has_switch_dispatch` property is
boolean `true`, or the node sits in a `cmd.go` file and is named `Run`
or ends in `Cmd`. -/
def hasSwitchDispatch (n : GraphNode) : Bool :=
  (match getProp n "has_switch_dispatch" with
   | some (.bool true) => true
   | _ => false) ||
  (strContains n.filePath "cmd.go" && (n.name == "Run" || strEnds n.name "Cmd"))

/-- Tag every `calls`-callee of `callerID` with the given
`call_pattern` (the inner loops of `detectCallPatterns`). -/
def tagCallees (g : DGraph) (callerID pattern : String) : DGraph :=
  (g.getOutgoing callerID RelCalls).foldl
    (fun acc rel => mapById acc rel.target fun n => setProp n "call_pattern" (.str pattern))
    g

/-- Pass 1, mirrors `detectCallPatterns`.  The caller fields read by the
dispatch predicates are never written by this pass, so iterating the
pre-pass node list is faithful. -/
def detectCallPatterns (g : DGraph) : DGraph :=
  g.nodes.foldl
    (fun acc caller =>
      let acc1 := if hasDynamicDispatch caller then
          tagCallees acc caller.id "dynamic_dispatch" else acc
      if hasSwitchDispatch caller then
        tagCallees acc1 caller.id "framework_dispatch" else acc1)
    g

/-- Pass 2, mirrors `flagUnreachable`: flag every non-file, non-folder,
non-community, non-process node with no incoming `calls` edge. -/
def flagUnreachable (g : DGraph) : DGraph :=
  { g with nodes := g.nodes.map fun n =>
      if n.label == NodeFile || n.label == NodeFolder then n
      else if n.label == NodeCommunity || n.label == NodeProcess then n
      else if g.hasIncoming n.id RelCalls then n
      else { n with isDead := true } }

/-- The callee update of the intra-class / intra-file rescue: clear the
dead flag and record the call pattern. -/
def clearWithPattern (g : DGraph) (calleeID pattern : String) : DGraph :=
  mapById g calleeID fun n => setProp { n with isDead := false } "call_pattern" (.str pattern)

/-- The per-caller body of the intra-class loop of
`trackIntraClassCalls`: for each `calls`-callee that is a method of the
caller's class, un-flag it and tag `intra_class`. -/
def intraClassStep (acc : DGraph) (caller : GraphNode) : DGraph :=
  (acc.getOutgoing caller.id RelCalls).foldl
    (fun a rel =>
      match a.getNode rel.target with
      | some callee =>
        if callee.label == NodeMethod && callee.className == caller.className then
          clearWithPattern a rel.target "intra_class"
        else a
      | none => a)
    acc

/-- The `fileMethods` map of `trackIntraClassCalls`: file path → method
name → method node (later insertions overwrite, as in the Go map). -/
def buildFileMethods (nodes : List GraphNode) :
    List (String × List (String × GraphNode)) :=
  nodes.foldl
    (fun fm n =>
      if n.label == NodeMethod then
        aset fm n.filePath (aset ((alookup fm n.filePath).getD []) n.name n)
      else fm)
    []

/-- The intra-file half of `trackIntraClassCalls`: for each method
caller (one per distinct name per file, as in the Go `fileMethods`
map), un-flag same-file method callees and tag `intra_file`.  The map is
keyed and consumed only through fields no pass mutates, so building it
from the current node list is faithful. -/
def intraFilePass (g : DGraph) : DGraph :=
  (buildFileMethods g.nodes).foldl
    (fun acc fpMethods =>
      fpMethods.2.foldl
        (fun a nameCaller =>
          (a.getOutgoing nameCaller.2.id RelCalls).foldl
            (fun b rel =>
              match b.getNode rel.target with
              | some callee =>
                if callee.label == NodeMethod && callee.filePath == fpMethods.1 then
                  clearWithPattern b rel.target "intra_file"
                else b
              | none => b)
            a)
        acc)
    g

/-- Pass 3, mirrors `trackIntraClassCalls` (the unused `classMethods`
map of the Go function is not modelled): first the intra-class loop over
methods with a class name, then the intra-file loop. -/
def trackIntraClassCalls (g : DGraph) : DGraph :=
  let g1 := g.nodes.foldl
    (fun acc caller =>
      if caller.label == NodeMethod && !(caller.className == "") then
        intraClassStep acc caller
      else acc)
    g
  intraFilePass g1

/-- Mirrors `isTestFunction`. -/
def isTestFunction (n : GraphNode) : Bool :=
  strEnds n.filePath "_test.go" || strEnds n.filePath "_test.py" ||
  (n.label == NodeFunction && (strStarts n.name "Test" || strStarts n.name "test_"))

/-- The explicit dunder-method list of `isDunderMethod`. -/
def dunderMethods : List String :=
  ["__init__", "__new__", "__del__", "__repr__", "__str__",
   "__lt__", "__le__", "__eq__", "__ne__", "__gt__", "__ge__",
   "__hash__", "__bool__", "__len__"]

/-- Mirrors `isDunderMethod`. -/
def isDunderMethod (n : GraphNode) : Bool :=
  (strStarts n.name "__" && strEnds n.name "__") ||
  dunderMethods.any fun m => n.name == m

/-- Mirrors `isConstructor`. -/
def isConstructor (n : GraphNode) : Bool :=
  n.label == NodeMethod && (n.name == "New" ++ n.className || n.name == "__init__")

/-- Mirrors `isDeadCodeExempt` (all six disjuncts, including the
structural-node one). -/
def isDeadCodeExempt (n : GraphNode) : Bool :=
  n.isEntryPoint || n.isExported || isTestFunction n || isDunderMethod n ||
  isConstructor n || n.label == NodeCommunity || n.label == NodeProcess

/-- The five exemption conditions named by the specification's
dead-code exemption invariant (entry point, exported, test, dunder,
constructor). -/
def exemptCore (n : GraphNode) : Bool :=
  n.isEntryPoint || n.isExported || isTestFunction n || isDunderMethod n ||
  isConstructor n

/-- Pass 4, mirrors `applyExemptions`. -/
def applyExemptions (g : DGraph) : DGraph :=
  { g with nodes := g.nodes.map fun n =>
      if n.isDead && isDeadCodeExempt n then { n with isDead := false } else n }

/-- Mirrors `isAllowlistExempt`. -/
def isAllowlistExempt (n : GraphNode) : Bool :=
  (strContains n.filePath "server.go" && strStarts n.name "handle") ||
  (strContains n.filePath "cmd.go" &&
    (strStarts n.name "setup" || strStarts n.name "configure" ||
     strStarts n.name "output")) ||
  strStarts n.name "register" ||
  (match getProp n "call_pattern" with
   | some (.str p) =>
     p == "dynamic_dispatch" || p == "framework_dispatch" ||
     p == "mcp_handler" || p == "cli_subcommand"
   | _ => false)

/-- Pass 5, mirrors `applyAllowlistExemptions`. -/
def applyAllowlistExemptions (g : DGraph) : DGraph :=
  { g with nodes := g.nodes.map fun n =>
      if n.isDead && isAllowlistExempt n then
        let n1 := setProp { n with isDead := false } "dead_code_exempt" (.bool true)
        setProp n1 "exempt_reason" (.str "framework_pattern")
      else n }

/-- Mirrors `findClassByName`. -/
def findClassByName (g : DGraph) (className : String) : Option GraphNode :=
  g.nodes.find? fun n => n.label == NodeClass && n.name == className

/-- Mirrors `findBaseClasses`: the class-labelled targets of the
*direct* outgoing `extends` edges of `cls`. -/
def findBaseClasses (g : DGraph) (cls : GraphNode) : List GraphNode :=
  (g.getOutgoing cls.id RelExtends).filterMap fun rel =>
    match g.getNode rel.target with
    | some bc => if bc.label == NodeClass then some bc else none
    | none => none

/-- Mirrors `findMethodInClass`: the first method of the class with the
given name. -/
def findMethodInClass (g : DGraph) (cls : GraphNode) (methodName : String) :
    Option GraphNode :=
  g.nodes.find? fun n =>
    n.label == NodeMethod && n.className == cls.name && n.name == methodName

/-- Mirrors `isOverrideOfNonDeadMethod`. -/
def isOverrideOfNonDeadMethod (g : DGraph) (m : GraphNode) : Bool :=
  if m.className == "" then false
  else
    match findClassByName g m.className with
    | none => false
    | some cls =>
      (findBaseClasses g cls).any fun bc =>
        match findMethodInClass g bc m.name with
        | some bm => !bm.isDead
        | none => false

/-- One iteration of the `applyOverridePass` loop, at node position
`i` of the (snapshot) iteration order. -/
def overrideStep (g : DGraph) (i : Nat) : DGraph :=
  match g.nodes.get? i with
  | none => g
  | some n =>
    if n.isDead && n.label == NodeMethod && isOverrideOfNonDeadMethod g n then
      { g with nodes := g.nodes.set i { n with isDead := false } }
    else g

/-- The `applyOverridePass` loop over a list of node positions. -/
def overrideLoop : DGraph → List Nat → DGraph
  | g, [] => g
  | g, i :: is => overrideLoop (overrideStep g i) is

/-- Pass 6, mirrors `applyOverridePass`: visit every node once (in the
determinized iteration order) and un-flag dead methods that override a
non-dead base-class method. -/
def applyOverridePass (g : DGraph) : DGraph :=
  overrideLoop g (List.range g.nodes.length)

/-- The confidence value computed by `assignConfidenceScores` for a dead
node, following the four sequential overwrites of the Go code.  The Go
byte test `node.Name[0] >= 'a' && node.Name[0] <= 'z'` is the first
character for the ASCII names handled here. -/
def confidenceFor (n : GraphNode) : String :=
  let c1 := match getProp n "call_pattern" with
    | some (.str p) =>
      if p == "dynamic_dispatch" || p == "framework_dispatch" then "low" else "high"
    | _ => "high"
  let c2 := match getProp n "call_pattern" with
    | some (.str p) => if p == "intra_class" then "medium" else c1
    | _ => c1
  let c3 := if isTestFunction n || strContains n.filePath "_test" then "medium" else c2
  if (n.label == NodeMethod || n.label == NodeFunction) &&
     (match n.name.data with
      | c :: _ => decide ('a' ≤ c) && decide (c ≤ 'z')
      | [] => false) &&
     c3 == "high" then "medium"
  else c3

/-- Pass 7, mirrors `assignConfidenceScores`. -/
def assignConfidenceScores (g : DGraph) : DGraph :=
  { g with nodes := g.nodes.map fun n =>
      if n.isDead then setProp n "dead_code_confidence" (.str (confidenceFor n)) else n }

/-- The first five passes of `ProcessDeadCode` (everything before the
override pass). -/
def deadCodeFirstFive (g : DGraph) : DGraph :=
  applyAllowlistExemptions (applyExemptions (trackIntraClassCalls
    (flagUnreachable (detectCallPatterns g))))

/-- The graph transformation of `ProcessDeadCode`: all seven passes in
order. -/
def deadCodePasses (g : DGraph) : DGraph :=
  assignConfidenceScores (applyOverridePass (deadCodeFirstFive g))

/-- The final count of `ProcessDeadCode`. -/
def countDead (nodes : List GraphNode) : Nat :=
  (nodes.filter fun n => n.isDead).length

/-- Mirrors `ProcessDeadCode`: run the seven passes, return the mutated
graph together with the dead-symbol count. -/
def processDeadCode (g : DGraph) : DGraph × Nat :=
  let g' := deadCodePasses g
  (g', countDead g'.nodes)

/-! ### C5 : the `main` / `helper` / `bar` scenario -/

/-- Scenario 2 of the specification: `main` is an entry-point function
calling `helper`; `bar` is an uncalled function. -/
def scenarioTwoGraph : DGraph :=
  { nodes :=
      [{ mkNode "function:main.go:main" NodeFunction "main" "main.go" with
          isEntryPoint := true },
       mkNode "function:main.go:helper" NodeFunction "helper" "main.go",
       mkNode "function:main.go:bar" NodeFunction "bar" "main.go"],
    rels :=
      [mkRel "calls:1" RelCalls "function:main.go:main" "function:main.go:helper"] }

/-- C5 (counterexample): on scenario 2, exactly `bar` is dead — but its
`dead_code_confidence` is `"medium"` (the lowercase-initial downgrade of
the confidence pass), not `"high"` as claimed. -/
theorem C5_counterexample :
    (((processDeadCode scenarioTwoGraph).1.nodes.filter fun n => n.isDead).map
        fun n => n.name) = ["bar"] ∧
    ((processDeadCode scenarioTwoGraph).1.getNode "function:main.go:bar").map
        (fun n => getProp n "dead_code_confidence") =
      some (some (.str "medium")) ∧
    some (some (PropVal.str "medium")) ≠ some (some (PropVal.str "high")) := by
  decide

/-- C5 (amended): on the scenario-2 input graph, after the dead-code
phase exactly `bar` is dead (the phase reports a count of 1), and
`bar`'s `dead_code_confidence` property equals `"medium"`: `bar` is a
lowercase-initial function, so the confidence pass downgrades it from
`"high"`. -/
theorem C5_amended :
    (((processDeadCode scenarioTwoGraph).1.nodes.filter fun n => n.isDead).map
        fun n => n.name) = ["bar"] ∧
    (processDeadCode scenarioTwoGraph).2 = 1 ∧
    ((processDeadCode scenarioTwoGraph).1.getNode "function:main.go:bar").map
        (fun n => getProp n "dead_code_confidence") =
      some (some (.str "medium")) := by
  decide

/-! ### C4 : override pass and transitive ancestors -/

/-- A graph with an inheritance *chain*: class `C` extends `B` extends
`A`; `A` has a method `render` kept alive by a call from the entry point
`main`; `C` has an uncalled method `render`; `B` has no `render`. -/
def chainGraph : DGraph :=
  { nodes :=
      [mkNode "class:a.go:A" NodeClass "A" "a.go",
       mkNode "class:b.go:B" NodeClass "B" "b.go",
       mkNode "class:c.go:C" NodeClass "C" "c.go",
       { mkNode "method:a.go:A.render" NodeMethod "render" "a.go" with
          className := "A" },
       { mkNode "method:c.go:C.render" NodeMethod "render" "c.go" with
          className := "C" },
       { mkNode "function:main.go:main" NodeFunction "main" "main.go" with
          isEntryPoint := true }],
    rels :=
      [mkRel "ext:1" RelExtends "class:c.go:C" "class:b.go:B",
       mkRel "ext:2" RelExtends "class:b.go:B" "class:a.go:A",
       mkRel "calls:1" RelCalls "function:main.go:main" "method:a.go:A.render"] }

/-- C4 (counterexample): in `chainGraph`, the method `C.render` is still
dead when the override pass runs, its class `C` has the ancestor class
`A` reachable via the `extends` chain `C → B → A`, and `A` has the
non-dead method `render` of the same name — yet after `ProcessDeadCode`
the method `C.render` remains dead, because `findBaseClasses` follows
only *direct* `extends` edges and `B` has no `render`. -/
theorem C4_counterexample :
    ((deadCodeFirstFive chainGraph).getNode "method:c.go:C.render").map
        (fun n => n.isDead) = some true ∧
    (mkRel "ext:1" RelExtends "class:c.go:C" "class:b.go:B") ∈ chainGraph.rels ∧
    (mkRel "ext:2" RelExtends "class:b.go:B" "class:a.go:A") ∈ chainGraph.rels ∧
    ((processDeadCode chainGraph).1.getNode "method:a.go:A.render").map
        (fun n => (n.name, n.isDead)) = some ("render", false) ∧
    ((processDeadCode chainGraph).1.getNode "method:c.go:C.render").map
        (fun n => n.isDead) = some true := by
  decide

/-! ### Generic `Forall₂` helpers for relating pass inputs and outputs -/

theorem forall₂_get? {α β : Type} {R : α → β → Prop} {l : List α} {l' : List β}
    (h : List.Forall₂ R l l') :
    ∀ {i : Nat} {a : α}, l.get? i = some a → ∃ b, l'.get? i = some b ∧ R a b := by
  induction h with
  | nil => intro i a ha; simp at ha
  | @cons x y l l' hxy _ ih =>
    intro i a ha
    cases i with
    | zero =>
      rw [List.get?_cons_zero] at ha
      exact ⟨y, rfl, (Option.some.injEq _ _ ▸ ha) ▸ hxy⟩
    | succ n =>
      rw [List.get?_cons_succ] at ha
      obtain ⟨b, hb, hr⟩ := ih ha
      exact ⟨b, by rw [List.get?_cons_succ]; exact hb, hr⟩

theorem forall₂_get?_right {α β : Type} {R : α → β → Prop} {l : List α} {l' : List β}
    (h : List.Forall₂ R l l') :
    ∀ {i : Nat} {b : β}, l'.get? i = some b → ∃ a, l.get? i = some a ∧ R a b := by
  induction h with
  | nil => intro i b hb; simp at hb
  | @cons x y l l' hxy _ ih =>
    intro i b hb
    cases i with
    | zero =>
      rw [List.get?_cons_zero] at hb
      exact ⟨x, rfl, (Option.some.injEq _ _ ▸ hb) ▸ hxy⟩
    | succ n =>
      rw [List.get?_cons_succ] at hb
      obtain ⟨a, ha, hr⟩ := ih hb
      exact ⟨a, by rw [List.get?_cons_succ]; exact ha, hr⟩

theorem forall₂_map_self {α : Type} {R : α → α → Prop} (f : α → α)
    (hf : ∀ a, R a (f a)) : ∀ l : List α, List.Forall₂ R l (l.map f)
  | [] => List.Forall₂.nil
  | a :: l => List.Forall₂.cons (hf a) (forall₂_map_self f hf l)

theorem forall₂_trans_gen {α : Type} {R : α → α → Prop}
    (hR : ∀ a b c, R a b → R b c → R a c) :
    ∀ {l1 l2 l3 : List α}, List.Forall₂ R l1 l2 → List.Forall₂ R l2 l3 →
      List.Forall₂ R l1 l3 := by
  intro l1 l2 l3 h12
  induction h12 generalizing l3 with
  | nil => intro h23; cases h23; exact List.Forall₂.nil
  | cons hab _ ih =>
    intro h23
    cases h23 with
    | cons hbc htail => exact List.Forall₂.cons (hR _ _ _ hab hbc) (ih htail)

theorem forall₂_mem_left {α β : Type} {R : α → β → Prop} {l : List α} {l' : List β}
    (h : List.Forall₂ R l l') : ∀ {a}, a ∈ l → ∃ b ∈ l', R a b := by
  induction h with
  | nil => intro a ha; simp at ha
  | @cons x y _ _ hxy _ ih =>
    intro a ha
    rcases List.mem_cons.mp ha with rfl | ha
    · exact ⟨y, List.mem_cons_self _ _, hxy⟩
    · obtain ⟨b, hb, hr⟩ := ih ha
      exact ⟨b, List.mem_cons_of_mem _ hb, hr⟩

theorem forall₂_mem_right {α β : Type} {R : α → β → Prop} {l : List α} {l' : List β}
    (h : List.Forall₂ R l l') : ∀ {b}, b ∈ l' → ∃ a ∈ l, R a b := by
  induction h with
  | nil => intro b hb; simp at hb
  | @cons x y _ _ hxy _ ih =>
    intro b hb
    rcases List.mem_cons.mp hb with rfl | hb
    · exact ⟨x, List.mem_cons_self _ _, hxy⟩
    · obtain ⟨a, ha, hr⟩ := ih hb
      exact ⟨a, List.mem_cons_of_mem _ ha, hr⟩

theorem forall₂_set_mono {α : Type} {R : α → α → Prop} (f : α → α)
    (hmono : ∀ a b, R a b → R a (f b)) :
    ∀ {l l' : List α}, List.Forall₂ R l l' → ∀ {i : Nat} {b : α},
      l'.get? i = some b → List.Forall₂ R l (l'.set i (f b)) := by
  intro l l' h
  induction h with
  | nil => intro i b hb; simp at hb
  | @cons x y l l' hxy htail ih =>
    intro i b hb
    cases i with
    | zero =>
      rw [List.get?_cons_zero] at hb
      rw [List.set_cons_zero]
      exact List.Forall₂.cons (hmono _ _ ((Option.some.injEq _ _ ▸ hb) ▸ hxy)) htail
    | succ n =>
      rw [List.get?_cons_succ] at hb
      rw [List.set_cons_succ]
      exact List.Forall₂.cons hxy (ih hb)

/-! ### C3 : dead-code exemptions survive to the end of `ProcessDeadCode` -/

theorem setProp_id (n : GraphNode) (k : String) (v : PropVal) :
    (setProp n k v).id = n.id := rfl

theorem setProp_label (n : GraphNode) (k : String) (v : PropVal) :
    (setProp n k v).label = n.label := rfl

theorem setProp_name (n : GraphNode) (k : String) (v : PropVal) :
    (setProp n k v).name = n.name := rfl

theorem setProp_filePath (n : GraphNode) (k : String) (v : PropVal) :
    (setProp n k v).filePath = n.filePath := rfl

theorem setProp_className (n : GraphNode) (k : String) (v : PropVal) :
    (setProp n k v).className = n.className := rfl

theorem setProp_isEntryPoint (n : GraphNode) (k : String) (v : PropVal) :
    (setProp n k v).isEntryPoint = n.isEntryPoint := rfl

theorem setProp_isExported (n : GraphNode) (k : String) (v : PropVal) :
    (setProp n k v).isExported = n.isExported := rfl

theorem setProp_isDead (n : GraphNode) (k : String) (v : PropVal) :
    (setProp n k v).isDead = n.isDead := rfl

/-- The fields consulted by the exemption predicates are preserved and
the dead flag is only ever cleared, never set, by each pass that runs
after the exemption pass. -/
def Weaken (n n' : GraphNode) : Prop :=
  n'.id = n.id ∧ n'.label = n.label ∧ n'.name = n.name ∧ n'.filePath = n.filePath ∧
  n'.className = n.className ∧ n'.isEntryPoint = n.isEntryPoint ∧
  n'.isExported = n.isExported ∧ (n'.isDead = true → n.isDead = true)

theorem weaken_refl (n : GraphNode) : Weaken n n :=
  ⟨rfl, rfl, rfl, rfl, rfl, rfl, rfl, fun h => h⟩

theorem weaken_trans {a b c : GraphNode} (h1 : Weaken a b) (h2 : Weaken b c) :
    Weaken a c := by
  obtain ⟨e1, e2, e3, e4, e5, e6, e7, hd⟩ := h1
  obtain ⟨f1, f2, f3, f4, f5, f6, f7, hd'⟩ := h2
  exact ⟨f1.trans e1, f2.trans e2, f3.trans e3, f4.trans e4, f5.trans e5,
    f6.trans e6, f7.trans e7, fun h => hd (hd' h)⟩

theorem forall₂_weaken_trans {l1 l2 l3 : List GraphNode}
    (h12 : List.Forall₂ Weaken l1 l2) (h23 : List.Forall₂ Weaken l2 l3) :
    List.Forall₂ Weaken l1 l3 :=
  @forall₂_trans_gen GraphNode Weaken (fun _ _ _ a b => weaken_trans a b) l1 l2 l3 h12 h23

theorem weaken_clear {a b : GraphNode} (h : Weaken a b) :
    Weaken a { b with isDead := false } := by
  obtain ⟨e1, e2, e3, e4, e5, e6, e7, _⟩ := h
  exact ⟨e1, e2, e3, e4, e5, e6, e7, by intro hc; simp at hc⟩

theorem weaken_setProp {a b : GraphNode} (h : Weaken a b) (k : String) (v : PropVal) :
    Weaken a (setProp b k v) := by
  obtain ⟨e1, e2, e3, e4, e5, e6, e7, hd⟩ := h
  exact ⟨e1, e2, e3, e4, e5, e6, e7, fun hc => hd hc⟩

theorem weaken_allowlist (g : DGraph) :
    List.Forall₂ Weaken g.nodes (applyAllowlistExemptions g).nodes := by
  apply forall₂_map_self
  intro n
  by_cases h : (n.isDead && isAllowlistExempt n) = true
  · rw [if_pos h]
    exact weaken_setProp (weaken_setProp (weaken_clear (weaken_refl n)) _ _) _ _
  · rw [if_neg h]
    exact weaken_refl n

theorem weaken_confidence (g : DGraph) :
    List.Forall₂ Weaken g.nodes (assignConfidenceScores g).nodes := by
  apply forall₂_map_self
  intro n
  by_cases h : n.isDead = true
  · rw [if_pos h]
    exact weaken_setProp (weaken_refl n) _ _
  · rw [if_neg h]
    exact weaken_refl n

theorem weaken_overrideStep (g : DGraph) (i : Nat) :
    List.Forall₂ Weaken g.nodes ((overrideStep g i).nodes) := by
  unfold overrideStep
  cases hgi : g.nodes.get? i with
  | none => exact List.forall₂_same.mpr fun a _ => weaken_refl a
  | some n =>
    dsimp only
    by_cases hc : (n.isDead && n.label == NodeMethod &&
        isOverrideOfNonDeadMethod g n) = true
    · rw [if_pos hc]
      have hrefl : List.Forall₂ Weaken g.nodes g.nodes :=
        List.forall₂_same.mpr fun a _ => weaken_refl a
      exact @forall₂_set_mono GraphNode Weaken (fun b => { b with isDead := false })
        (fun a b hab => weaken_clear hab) g.nodes g.nodes hrefl i n hgi
    · rw [if_neg hc]
      exact List.forall₂_same.mpr fun a _ => weaken_refl a

theorem weaken_overrideLoop :
    ∀ (is : List Nat) (g : DGraph),
      List.Forall₂ Weaken g.nodes ((overrideLoop g is).nodes)
  | [], g => List.forall₂_same.mpr fun a _ => weaken_refl a
  | i :: is, g =>
    forall₂_weaken_trans
      (weaken_overrideStep g i) (weaken_overrideLoop is (overrideStep g i))

/-- The composition of the three passes that run after the exemption
pass never re-flags a node and preserves the exemption-relevant
fields. -/
theorem weaken_after_exemptions (g : DGraph) :
    List.Forall₂ Weaken
      (applyExemptions (trackIntraClassCalls (flagUnreachable (detectCallPatterns g)))).nodes
      (deadCodePasses g).nodes := by
  have h1 := weaken_allowlist
    (applyExemptions (trackIntraClassCalls (flagUnreachable (detectCallPatterns g))))
  have h2 := weaken_overrideLoop
    (List.range (deadCodeFirstFive g).nodes.length) (deadCodeFirstFive g)
  have h3 := weaken_confidence (applyOverridePass (deadCodeFirstFive g))
  exact forall₂_weaken_trans h1 (forall₂_weaken_trans h2 h3)

theorem exemptCore_imp_isDeadCodeExempt {n : GraphNode}
    (h : exemptCore n = true) : isDeadCodeExempt n = true := by
  simp only [exemptCore, Bool.or_eq_true] at h
  simp only [isDeadCodeExempt, Bool.or_eq_true]
  tauto

theorem applyExemptions_exempt_not_dead (g : DGraph) :
    ∀ n ∈ (applyExemptions g).nodes, exemptCore n = true → n.isDead = false := by
  intro n hn
  unfold applyExemptions at hn
  simp only [List.mem_map] at hn
  obtain ⟨m, _, rfl⟩ := hn
  by_cases hd : (m.isDead && isDeadCodeExempt m) = true
  · rw [if_pos hd]
    intro _
    rfl
  · rw [if_neg hd]
    intro hc
    have hex := exemptCore_imp_isDeadCodeExempt hc
    cases hm : m.isDead
    · rfl
    · exact absurd (by simp [hm, hex]) hd

theorem exemptCore_weaken {m n : GraphNode} (h : Weaken m n) :
    exemptCore n = exemptCore m := by
  obtain ⟨_, h2, h3, h4, h5, h6, h7, _⟩ := h
  simp only [exemptCore, isTestFunction, isDunderMethod, isConstructor,
    h2, h3, h4, h5, h6, h7]

/-- C3: for every input graph and every node of the resulting graph that
is an entry point, exported, a test function (by file-name suffix or the
`Test*` / `test_*` naming convention), a dunder method, or a
constructor, after `ProcessDeadCode` returns the node's `IsDead` flag is
false: the exemption pass clears the flag, and no later pass ever sets
it. -/
theorem C3_dead_code_exemptions (g : DGraph) (n : GraphNode)
    (hmem : n ∈ (processDeadCode g).1.nodes) (hc : exemptCore n = true) :
    n.isDead = false := by
  have hmem' : n ∈ (deadCodePasses g).nodes := hmem
  obtain ⟨i, hi⟩ := List.mem_iff_get?.mp hmem'
  obtain ⟨m, hm, hw⟩ := forall₂_get?_right (weaken_after_exemptions g) hi
  have hmm := List.get?_mem hm
  have hcm : exemptCore m = true := by rw [← exemptCore_weaken hw]; exact hc
  have hmd := applyExemptions_exempt_not_dead _ m hmm hcm
  cases hnd : n.isDead
  · rfl
  · have := hw.2.2.2.2.2.2.2 hnd
    rw [hmd] at this
    exact absurd this (by decide)

/-- The entry-point function used to witness C3 concretely. -/
def witnessEntryNode : GraphNode :=
  { mkNode "function:main.go:main" NodeFunction "main" "main.go" with
      isEntryPoint := true }

/-- Witness for C3: in a one-node graph holding an uncalled entry-point
function, the node survives `ProcessDeadCode` un-flagged. -/
theorem C3_witness :
    witnessEntryNode ∈ (processDeadCode (DGraph.mk [witnessEntryNode] [])).1.nodes ∧
    exemptCore witnessEntryNode = true ∧
    witnessEntryNode.isDead = false :=
  ⟨by decide, by decide,
   C3_dead_code_exemptions (DGraph.mk [witnessEntryNode] []) witnessEntryNode
     (by decide) (by decide)⟩

/-! ### C4 (amended) : the override pass and direct base classes -/

/-- The exact effect of an override-pass step on any single node:
unchanged, or the dead flag cleared. -/
def OClear (n n' : GraphNode) : Prop :=
  n' = n ∨ n' = { n with isDead := false }

theorem oclear_refl (n : GraphNode) : OClear n n := Or.inl rfl

theorem oclear_id {a b : GraphNode} (h : OClear a b) : b.id = a.id := by
  rcases h with rfl | rfl <;> rfl

theorem oclear_label {a b : GraphNode} (h : OClear a b) : b.label = a.label := by
  rcases h with rfl | rfl <;> rfl

theorem oclear_name {a b : GraphNode} (h : OClear a b) : b.name = a.name := by
  rcases h with rfl | rfl <;> rfl

theorem oclear_className {a b : GraphNode} (h : OClear a b) :
    b.className = a.className := by
  rcases h with rfl | rfl <;> rfl

theorem oclear_not_dead {a b : GraphNode} (h : OClear a b) (ha : a.isDead = false) :
    b.isDead = false := by
  rcases h with rfl | rfl
  · exact ha
  · rfl

theorem oclear_clear {a b : GraphNode} (h : OClear a b) :
    OClear a { b with isDead := false } := by
  rcases h with rfl | rfl
  · exact Or.inr rfl
  · exact Or.inr rfl

/-- Relation between the override pass's input graph and any
intermediate state of its loop: relationships untouched, every node at
most cleared. -/
def OCRel (g h : DGraph) : Prop :=
  h.rels = g.rels ∧ List.Forall₂ OClear g.nodes h.nodes

theorem ocrel_refl (g : DGraph) : OCRel g g :=
  ⟨rfl, List.forall₂_same.mpr fun a _ => oclear_refl a⟩

theorem find?_rel_some {α : Type} {R : α → α → Prop} {p q : α → Bool}
    (hpq : ∀ a b, R a b → p a = q b) :
    ∀ {l l' : List α}, List.Forall₂ R l l' → ∀ {a}, l.find? p = some a →
      ∃ b, l'.find? q = some b ∧ R a b := by
  intro l l' h
  induction h with
  | nil => intro a ha; simp at ha
  | @cons x y l l' hxy _ ih =>
    intro a ha
    by_cases hx : p x = true
    · rw [List.find?_cons_of_pos _ hx] at ha
      injection ha with ha
      have hy : q y = true := by rw [← hpq x y hxy]; exact hx
      exact ⟨y, by rw [List.find?_cons_of_pos _ hy], ha ▸ hxy⟩
    · rw [List.find?_cons_of_neg _ (by simpa using hx)] at ha
      obtain ⟨b, hb, hr⟩ := ih ha
      have hy : ¬ q y = true := by rw [← hpq x y hxy]; exact hx
      exact ⟨b, by rw [List.find?_cons_of_neg _ (by simpa using hy)]; exact hb, hr⟩

theorem find?_rel_none {α : Type} {R : α → α → Prop} {p q : α → Bool}
    (hpq : ∀ a b, R a b → p a = q b) {l l' : List α} (h : List.Forall₂ R l l')
    (hn : l.find? p = none) : l'.find? q = none := by
  rw [List.find?_eq_none] at hn ⊢
  intro b hb
  obtain ⟨a, ha, hr⟩ := forall₂_mem_right h hb
  rw [← hpq a b hr]
  exact hn a ha

theorem forall₂_filterMap {α β : Type} {R : β → β → Prop} {f f' : α → Option β}
    (hf : ∀ x, (∀ {a}, f x = some a → ∃ b, f' x = some b ∧ R a b) ∧
               (f x = none → f' x = none)) :
    ∀ l : List α, List.Forall₂ R (l.filterMap f) (l.filterMap f') := by
  intro l
  induction l with
  | nil => exact List.Forall₂.nil
  | cons x xs ih =>
    rw [List.filterMap_cons, List.filterMap_cons]
    cases hx : f x with
    | none =>
      rw [(hf x).2 hx]
      exact ih
    | some a =>
      obtain ⟨b, hb, hr⟩ := (hf x).1 hx
      rw [hb]
      exact List.Forall₂.cons hr ih

theorem ocrel_getOutgoing {g h : DGraph} (hoc : OCRel g h) (id t : String) :
    h.getOutgoing id t = g.getOutgoing id t := by
  unfold DGraph.getOutgoing
  rw [hoc.1]

theorem ocrel_getNode_some {g h : DGraph} (hoc : OCRel g h) {id : String}
    {a : GraphNode} (ha : g.getNode id = some a) :
    ∃ b, h.getNode id = some b ∧ OClear a b :=
  find?_rel_some (fun a b hr => by rw [oclear_id hr]) hoc.2 ha

theorem ocrel_getNode_none {g h : DGraph} (hoc : OCRel g h) {id : String}
    (ha : g.getNode id = none) : h.getNode id = none :=
  find?_rel_none (fun a b hr => by rw [oclear_id hr]) hoc.2 ha

theorem ocrel_findClassByName {g h : DGraph} (hoc : OCRel g h) {cn : String}
    {c : GraphNode} (hc : findClassByName g cn = some c) :
    ∃ c', findClassByName h cn = some c' ∧ OClear c c' :=
  find?_rel_some (fun a b hr => by rw [oclear_label hr, oclear_name hr]) hoc.2 hc

theorem ocrel_findBaseClasses {g h : DGraph} (hoc : OCRel g h) {c c' : GraphNode}
    (hcc : OClear c c') :
    List.Forall₂ OClear (findBaseClasses g c) (findBaseClasses h c') := by
  unfold findBaseClasses
  rw [ocrel_getOutgoing hoc, oclear_id hcc]
  apply forall₂_filterMap
  intro rel
  constructor
  · intro a ha
    cases hg : g.getNode rel.target with
    | none => rw [hg] at ha; simp at ha
    | some bc =>
      rw [hg] at ha
      dsimp only at ha
      obtain ⟨bc', hbc', hr⟩ := ocrel_getNode_some hoc hg
      rw [hbc']
      dsimp only
      by_cases hl : (bc.label == NodeClass) = true
      · rw [if_pos hl] at ha
        injection ha with ha
        subst ha
        have hl' : (bc'.label == NodeClass) = true := by
          rw [oclear_label hr]; exact hl
        exact ⟨bc', by rw [if_pos hl'], hr⟩
      · rw [if_neg hl] at ha
        simp at ha
  · intro hnone
    cases hg : g.getNode rel.target with
    | none => rw [ocrel_getNode_none hoc hg]
    | some bc =>
      rw [hg] at hnone
      dsimp only at hnone
      obtain ⟨bc', hbc', hr⟩ := ocrel_getNode_some hoc hg
      rw [hbc']
      dsimp only
      by_cases hl : (bc.label == NodeClass) = true
      · rw [if_pos hl] at hnone; simp at hnone
      · have hl' : ¬ (bc'.label == NodeClass) = true := by
          rw [oclear_label hr]; exact hl
        rw [if_neg hl']

theorem ocrel_findMethodInClass {g h : DGraph} (hoc : OCRel g h) {c c' : GraphNode}
    (hcc : OClear c c') (mn : String) {bm : GraphNode}
    (hbm : findMethodInClass g c mn = some bm) :
    ∃ bm', findMethodInClass h c' mn = some bm' ∧ OClear bm bm' := by
  unfold findMethodInClass at hbm ⊢
  exact find?_rel_some
    (fun a b hr => by
      rw [oclear_label hr, oclear_className hr, oclear_name hr, oclear_name hcc])
    hoc.2 hbm

theorem ocrel_isOverride {g h : DGraph} (hoc : OCRel g h) {m m' : GraphNode}
    (hmm : OClear m m') (hov : isOverrideOfNonDeadMethod g m = true) :
    isOverrideOfNonDeadMethod h m' = true := by
  unfold isOverrideOfNonDeadMethod at hov ⊢
  rw [oclear_className hmm, oclear_name hmm]
  by_cases hcn : (m.className == "") = true
  · rw [if_pos hcn] at hov
    exact absurd hov (by decide)
  · rw [if_neg hcn] at hov ⊢
    cases hfc : findClassByName g m.className with
    | none => rw [hfc] at hov; simp at hov
    | some cls =>
      rw [hfc] at hov
      obtain ⟨cls', hcls', hrc⟩ := ocrel_findClassByName hoc hfc
      rw [hcls']
      rw [List.any_eq_true] at hov ⊢
      obtain ⟨bc, hbc, hpred⟩ := hov
      obtain ⟨bc', hbc', hrb⟩ := forall₂_mem_left (ocrel_findBaseClasses hoc hrc) hbc
      refine ⟨bc', hbc', ?_⟩
      cases hfm : findMethodInClass g bc m.name with
      | none => rw [hfm] at hpred; simp at hpred
      | some bm =>
        rw [hfm] at hpred
        obtain ⟨bm', hbm', hrm⟩ := ocrel_findMethodInClass hoc hrb m.name hfm
        rw [hbm']
        have hbmd : bm.isDead = false := by simpa using hpred
        simp [oclear_not_dead hrm hbmd]

theorem ocrel_overrideStep {g h : DGraph} (hoc : OCRel g h) (i : Nat) :
    OCRel g (overrideStep h i) := by
  unfold overrideStep
  cases hgi : h.nodes.get? i with
  | none => exact hoc
  | some n =>
    dsimp only
    by_cases hc : (n.isDead && n.label == NodeMethod &&
        isOverrideOfNonDeadMethod h n) = true
    · rw [if_pos hc]
      exact ⟨hoc.1, @forall₂_set_mono GraphNode OClear
        (fun b => { b with isDead := false })
        (fun a b hab => oclear_clear hab) g.nodes h.nodes hoc.2 i n hgi⟩
    · rw [if_neg hc]
      exact hoc

theorem overrideStep_preserves_clear {h : DGraph} {p : Nat} {m : GraphNode}
    (hp : h.nodes.get? p = some m) (hd : m.isDead = false) (i : Nat) :
    ∃ m', (overrideStep h i).nodes.get? p = some m' ∧ m'.isDead = false := by
  unfold overrideStep
  cases hgi : h.nodes.get? i with
  | none => exact ⟨m, hp, hd⟩
  | some n =>
    dsimp only
    by_cases hc : (n.isDead && n.label == NodeMethod &&
        isOverrideOfNonDeadMethod h n) = true
    · rw [if_pos hc]
      by_cases hip : i = p
      · subst hip
        rw [hgi] at hp
        injection hp with hp
        subst hp
        simp only [Bool.and_eq_true] at hc
        rw [hd] at hc
        exact absurd hc.1.1 (by decide)
      · refine ⟨m, ?_, hd⟩
        show ((h.nodes.set i { n with isDead := false }).get? p) = some m
        rw [List.get?_set_ne _ _ hip]
        exact hp
    · rw [if_neg hc]
      exact ⟨m, hp, hd⟩

theorem overrideLoop_preserves_clear {p : Nat} :
    ∀ (is : List Nat) (h : DGraph) {m : GraphNode},
      h.nodes.get? p = some m → m.isDead = false →
      ∃ m', (overrideLoop h is).nodes.get? p = some m' ∧ m'.isDead = false
  | [], _, m, hp, hd => ⟨m, hp, hd⟩
  | i :: is, h, _, hp, hd => by
    obtain ⟨m', hp', hd'⟩ := overrideStep_preserves_clear hp hd i
    exact overrideLoop_preserves_clear is (overrideStep h i) hp' hd'

theorem ocrel_overrideLoop {g : DGraph} :
    ∀ (is : List Nat) (h : DGraph), OCRel g h → OCRel g (overrideLoop h is)
  | [], _, hoc => hoc
  | i :: is, h, hoc => ocrel_overrideLoop is (overrideStep h i) (ocrel_overrideStep hoc i)

theorem overrideLoop_clears (gref : DGraph) (p : Nat) (M : GraphNode)
    (hp : gref.nodes.get? p = some M) (hmeth : M.label = NodeMethod)
    (hov : isOverrideOfNonDeadMethod gref M = true) :
    ∀ (is : List Nat) (h : DGraph), OCRel gref h → p ∈ is →
      ∃ m', (overrideLoop h is).nodes.get? p = some m' ∧ m'.isDead = false := by
  intro is
  induction is with
  | nil => intro h _ hmem; simp at hmem
  | cons i is ih =>
    intro h hoc hmem
    obtain ⟨m, hm, hocm⟩ := forall₂_get? hoc.2 hp
    cases hdead : m.isDead with
    | false =>
      obtain ⟨m', hp', hd'⟩ := overrideStep_preserves_clear hm hdead i
      exact overrideLoop_preserves_clear is (overrideStep h i) hp' hd'
    | true =>
      by_cases hip : i = p
      · subst hip
        have hcond : (m.isDead && m.label == NodeMethod &&
            isOverrideOfNonDeadMethod h m) = true := by
          have h1 : m.label = NodeMethod := by rw [oclear_label hocm, hmeth]
          have h2 := ocrel_isOverride hoc hocm hov
          simp [hdead, h1, h2]
        have hstep : (overrideStep h i).nodes.get? i =
            some { m with isDead := false } := by
          unfold overrideStep
          rw [hm]
          dsimp only
          rw [if_pos hcond]
          show ((h.nodes.set i { m with isDead := false }).get? i) = _
          rw [List.get?_set_eq, hm]
          rfl
        exact overrideLoop_preserves_clear is (overrideStep h i) hstep rfl
      · have hmem' : p ∈ is := by
          rcases List.mem_cons.mp hmem with h' | h'
          · exact absurd h'.symm hip
          · exact h'
        exact ih (overrideStep h i) (ocrel_overrideStep hoc i) hmem'

theorem find?_some_char {α : Type} {p : α → Bool} :
    ∀ {l : List α} {a}, l.find? p = some a →
      ∃ i, l.get? i = some a ∧ p a = true ∧
        ∀ j b, j < i → l.get? j = some b → p b = false := by
  intro l
  induction l with
  | nil => intro a h; simp at h
  | cons x xs ih =>
    intro a h
    by_cases hx : p x = true
    · rw [List.find?_cons_of_pos _ hx] at h
      injection h with h
      subst h
      exact ⟨0, rfl, hx, fun j b hj _ => absurd hj (Nat.not_lt_zero j)⟩
    · rw [List.find?_cons_of_neg _ (by simpa using hx)] at h
      obtain ⟨i, hi, hpa, hfirst⟩ := ih h
      refine ⟨i + 1, by rw [List.get?_cons_succ]; exact hi, hpa, ?_⟩
      intro j b hj hb
      cases j with
      | zero =>
        rw [List.get?_cons_zero] at hb
        injection hb with hb
        subst hb
        exact Bool.eq_false_iff.mpr hx
      | succ j' =>
        rw [List.get?_cons_succ] at hb
        exact hfirst j' b (Nat.lt_of_succ_lt_succ hj) hb

theorem find?_of_first {α : Type} {p : α → Bool} :
    ∀ {l : List α} {i : Nat} {a}, l.get? i = some a → p a = true →
      (∀ j b, j < i → l.get? j = some b → p b = false) → l.find? p = some a := by
  intro l
  induction l with
  | nil => intro i a h; simp at h
  | cons x xs ih =>
    intro i a h hpa hfirst
    cases i with
    | zero =>
      rw [List.get?_cons_zero] at h
      injection h with h
      subst h
      rw [List.find?_cons_of_pos _ hpa]
    | succ n =>
      rw [List.get?_cons_succ] at h
      have hx : p x = false := hfirst 0 x (Nat.succ_pos n) rfl
      rw [List.find?_cons_of_neg _ (by simp [hx])]
      exact ih h hpa fun j b hj hb =>
        hfirst (j + 1) b (Nat.succ_lt_succ hj) (by rw [List.get?_cons_succ]; exact hb)

/-- C4 (amended): for every still-dead method `M` (at the point the
override pass runs, i.e. after the first five passes) whose class is
found by name and has a *direct* base class (one `extends` edge to a
class-labelled node) holding a non-dead method of the same name, after
`ProcessDeadCode` the node with `M`'s ID is no longer flagged dead. -/
theorem C4_override_amended (g : DGraph) (mid : String) (M cls bc bm : GraphNode)
    (hM : (deadCodeFirstFive g).getNode mid = some M)
    (hdead : M.isDead = true)
    (hmeth : M.label = NodeMethod)
    (hne : M.className ≠ "")
    (hcls : findClassByName (deadCodeFirstFive g) M.className = some cls)
    (hbc : bc ∈ findBaseClasses (deadCodeFirstFive g) cls)
    (hbm : findMethodInClass (deadCodeFirstFive g) bc M.name = some bm)
    (hbmdead : bm.isDead = false) :
    ∃ M', (processDeadCode g).1.getNode mid = some M' ∧ M'.isDead = false := by
  have hov : isOverrideOfNonDeadMethod (deadCodeFirstFive g) M = true := by
    unfold isOverrideOfNonDeadMethod
    rw [if_neg (by simpa using hne), hcls, List.any_eq_true]
    exact ⟨bc, hbc, by rw [hbm]; simp [hbmdead]⟩
  obtain ⟨p, hp, hpM, hfirst⟩ := find?_some_char hM
  have hplen : p < (deadCodeFirstFive g).nodes.length := by
    obtain ⟨hlt, _⟩ := List.get?_eq_some.mp hp
    exact hlt
  obtain ⟨m', hm', hd'⟩ := overrideLoop_clears (deadCodeFirstFive g) p M hp hmeth hov
    (List.range (deadCodeFirstFive g).nodes.length) (deadCodeFirstFive g)
    (ocrel_refl _) (List.mem_range.mpr hplen)
  -- relate the loop result back to the pre-pass graph
  have hocl : OCRel (deadCodeFirstFive g)
      (overrideLoop (deadCodeFirstFive g)
        (List.range (deadCodeFirstFive g).nodes.length)) :=
    ocrel_overrideLoop _ _ (ocrel_refl _)
  obtain ⟨m'', hm'', hocm⟩ := forall₂_get? hocl.2 hp
  rw [hm'] at hm''
  injection hm'' with hm''
  subst hm''
  -- the confidence pass leaves the (now non-dead) node unchanged
  have hfinal : (processDeadCode g).1.nodes.get? p = some m' := by
    show ((assignConfidenceScores (applyOverridePass (deadCodeFirstFive g))).nodes.get? p)
      = some m'
    unfold assignConfidenceScores applyOverridePass
    rw [List.get?_map, hm']
    simp [hd']
  -- identify the first position matching the ID in the final graph
  refine ⟨m', ?_, hd'⟩
  show (processDeadCode g).1.nodes.find? (fun n => n.id == mid) = some m'
  apply find?_of_first hfinal
  · rw [oclear_id hocm]
    exact hpM
  · intro j b hj hb
    have hjlen : j < (deadCodeFirstFive g).nodes.length := Nat.lt_trans hj hplen
    have hja : (deadCodeFirstFive g).nodes.get? j =
        some ((deadCodeFirstFive g).nodes.get ⟨j, hjlen⟩) := List.get?_eq_get hjlen
    obtain ⟨bj, hbj, hocj⟩ := forall₂_get? hocl.2 hja
    have hbfin : (processDeadCode g).1.nodes.get? j =
        some (if bj.isDead then setProp bj "dead_code_confidence"
          (.str (confidenceFor bj)) else bj) := by
      show ((assignConfidenceScores (applyOverridePass (deadCodeFirstFive g))).nodes.get? j) = _
      unfold assignConfidenceScores applyOverridePass
      rw [List.get?_map, hbj]
      rfl
    rw [hbfin] at hb
    injection hb with hb
    subst hb
    have hid1 : (((deadCodeFirstFive g).nodes.get ⟨j, hjlen⟩).id == mid) = false :=
      hfirst j _ hj hja
    by_cases hbd : bj.isDead = true
    · rw [if_pos hbd, setProp_id, oclear_id hocj]
      exact hid1
    · rw [if_neg hbd, oclear_id hocj]
      exact hid1

/-- The direct-base witness graph: class `B` directly extends class `A`;
`A.render` is kept alive by a call from the entry point; `B.render` is
uncalled. -/
def directBaseGraph : DGraph :=
  { nodes :=
      [mkNode "class:a.go:A" NodeClass "A" "a.go",
       mkNode "class:b.go:B" NodeClass "B" "b.go",
       { mkNode "method:a.go:A.render" NodeMethod "render" "a.go" with
          className := "A" },
       { mkNode "method:b.go:B.render" NodeMethod "render" "b.go" with
          className := "B" },
       { mkNode "function:main.go:main" NodeFunction "main" "main.go" with
          isEntryPoint := true }],
    rels :=
      [mkRel "ext:1" RelExtends "class:b.go:B" "class:a.go:A",
       mkRel "calls:1" RelCalls "function:main.go:main" "method:a.go:A.render"] }

/-- The state of `B.render` when the override pass starts. -/
def dbMethodB : GraphNode :=
  { mkNode "method:b.go:B.render" NodeMethod "render" "b.go" with
      className := "B", isDead := true }

/-- The state of class `B` when the override pass starts (flagged by the
unreachable scan — classes have no incoming `calls`). -/
def dbClassB : GraphNode :=
  { mkNode "class:b.go:B" NodeClass "B" "b.go" with isDead := true }

/-- The state of class `A` when the override pass starts. -/
def dbClassA : GraphNode :=
  { mkNode "class:a.go:A" NodeClass "A" "a.go" with isDead := true }

/-- The state of `A.render` when the override pass starts (kept alive by
the call from `main`). -/
def dbMethodA : GraphNode :=
  { mkNode "method:a.go:A.render" NodeMethod "render" "a.go" with
      className := "A" }

/-- Witness for the amended C4: in `directBaseGraph`, `B.render` is
un-flagged by the override pass. -/
theorem C4_witness :
    ∃ M', (processDeadCode directBaseGraph).1.getNode "method:b.go:B.render" =
        some M' ∧ M'.isDead = false :=
  C4_override_amended directBaseGraph "method:b.go:B.render" dbMethodB dbClassB
    dbClassA dbMethodA (by decide) (by decide) (by decide) (by decide) (by decide)
    (by decide) (by decide) (by decide)

/-! ## C6 : `WalkRepo` error propagation (walker.go)

`filepath.WalkDir` is modelled as a fold over the walk-order entry
sequence; `SkipDir` pruning is modelled by a set of skipped directory
path prefixes.  Each entry carries the error (if any) that `WalkDir`
passes to the callback for it, the `filepath.Rel` outcome, and the
`os.ReadFile` outcome.  The gitignore matcher (external library) is an
abstract parameter.  The SHA-256 content hash of `FileEntry` is not
modelled (external crypto, read by no embedded function). -/

deriving instance DecidableEq for Except

/-- One entry visited by `filepath.WalkDir`, in walk order. -/
structure WalkEntry where
  path : String
  name : String
  isDir : Bool
  walkErr : Option String
  relPath : Except String String
  readResult : Except String String
deriving DecidableEq

/-- Mirrors `FileEntry` (without the SHA-256 field). -/
structure FileEntry where
  path : String
  relPath : String
  language : String
  content : String
  isDir : Bool := false
deriving DecidableEq

/-- Mirrors the `supportedExtensions` table. -/
def supportedExtensions : List (String × String) :=
  [(".py", "python"), (".ts", "typescript"), (".tsx", "typescript"),
   (".js", "javascript"), (".jsx", "javascript"), (".mjs", "javascript"),
   (".cjs", "javascript"), (".go", "go")]

/-- `filepath.Ext`: the suffix starting at the final dot of the name,
empty when there is no dot. -/
def fileExt (name : String) : String :=
  let rev := name.data.reverse
  if rev.contains '.' then
    String.mk ('.' :: (rev.takeWhile fun c => c ≠ '.').reverse)
  else ""

/-- The lowercased extension (`strings.ToLower(filepath.Ext(filename))`;
ASCII case mapping). -/
def extLower (filename : String) : String :=
  String.mk ((fileExt filename).data.map Char.toLower)

/-- Mirrors `isSupportedFile`. -/
def isSupportedFile (filename : String) : Bool :=
  (alookup supportedExtensions (extLower filename)).isSome

/-- Mirrors `getLanguage`. -/
def getLanguage (filename : String) : String :=
  (alookup supportedExtensions (extLower filename)).getD ""

/-- Mirrors `splitPath` (the platform separator is `/`). -/
def splitPath (path : String) : List String :=
  path.splitOn "/"

/-- Mirrors `shouldSkipDir`: always skip `.git`; a `filepath.Rel`
failure means "do not skip"; otherwise ask the matcher. -/
def shouldSkipDir (name : String) (rel : Except String String)
    (matcher : List String → Bool → Bool) : Bool :=
  if name == ".git" then true
  else
    match rel with
    | .error _ => false
    | .ok relPath => matcher (splitPath relPath) true

/-- Whether `path` lies inside one of the pruned directories. -/
def underAny (skips : List String) (path : String) : Bool :=
  skips.any fun s => strStarts path (s ++ "/")

/-- The `WalkDir` fold with the `WalkRepo` callback of walker.go:
mirrors the callback body statement by statement.  Returns the entries
accumulated so far together with the error (`nil` modelled as `none`)
— `WalkRepo` returns both. -/
def walkGo (matcher : List String → Bool → Bool) :
    List String → List FileEntry → List WalkEntry →
      List FileEntry × Option String
  | _, acc, [] => (acc, none)
  | skips, acc, e :: rest =>
    if underAny skips e.path then walkGo matcher skips acc rest
    else
      match e.walkErr with
      | some msg => (acc, some msg)
      | none =>
        if e.isDir then
          if shouldSkipDir e.name e.relPath matcher then
            walkGo matcher (e.path :: skips) acc rest
          else walkGo matcher skips acc rest
        else
          if !(isSupportedFile e.name) then walkGo matcher skips acc rest
          else
            match e.relPath with
            | .error msg => (acc, some msg)
            | .ok rel =>
              if matcher (splitPath rel) false then walkGo matcher skips acc rest
              else
                match e.readResult with
                | .error msg => (acc, some msg)
                | .ok content =>
                  walkGo matcher skips
                    (acc ++ [FileEntry.mk e.path rel (getLanguage e.name) content false])
                    rest

/-- Mirrors `WalkRepo` (with the combined matcher abstract). -/
def walkRepo (matcher : List String → Bool → Bool) (entries : List WalkEntry) :
    List FileEntry × Option String :=
  walkGo matcher [] [] entries

/-- C6 (amended): `WalkRepo` does *not* skip per-file read errors
silently: at the first supported, non-ignored, non-pruned file whose
read fails, the walk aborts and the error is returned to the caller
(together with the entries gathered before it).  In particular the walk
can return a non-nil error even when the root itself is accessible. -/
theorem C6_walker_amended (matcher : List String → Bool → Bool)
    (skips : List String) (acc : List FileEntry) (e : WalkEntry)
    (rest : List WalkEntry) (rel msg : String)
    (h1 : underAny skips e.path = false)
    (h2 : e.walkErr = none)
    (h3 : e.isDir = false)
    (h4 : isSupportedFile e.name = true)
    (h5 : e.relPath = .ok rel)
    (h6 : matcher (splitPath rel) false = false)
    (h7 : e.readResult = .error msg) :
    walkGo matcher skips acc (e :: rest) = (acc, some msg) := by
  simp [walkGo, h1, h2, h3, h4, h5, h6, h7]

/-- The failing-file walk used by the C6 counterexample and witness:
the root directory is accessible, a single supported file `a.go` fails
to read. -/
def failingWalk : List WalkEntry :=
  [WalkEntry.mk "/repo" "repo" true none (.ok ".") (.ok ""),
   WalkEntry.mk "/repo/a.go" "a.go" false none (.ok "a.go")
     (.error "permission denied")]

/-- C6 (counterexample): on a walk whose root is perfectly accessible
but whose one supported file fails to read, `WalkRepo` returns a
non-nil error — the claim says it should return the remaining entries
with a nil error, skipping the file silently. -/
theorem C6_counterexample :
    walkRepo (fun _ _ => false) failingWalk = ([], some "permission denied") ∧
    (some "permission denied" : Option String) ≠ none := by
  constructor
  · rfl
  · decide

/-- Witness for the amended C6 at the concrete failing walk. -/
theorem C6_witness :
    walkGo (fun _ _ => false) []
        [FileEntry.mk "/repo" "." "" "" true]
        [WalkEntry.mk "/repo/a.go" "a.go" false none (.ok "a.go")
          (.error "permission denied")] =
      ([FileEntry.mk "/repo" "." "" "" true], some "permission denied") :=
  C6_walker_amended (fun _ _ => false) [] [FileEntry.mk "/repo" "." "" "" true]
    (WalkEntry.mk "/repo/a.go" "a.go" false none (.ok "a.go")
      (.error "permission denied"))
    [] "a.go" "permission denied" (by decide) rfl rfl (by decide) rfl rfl rfl

/-! ### Association-list lemmas shared by the TF-IDF and RRF proofs -/

theorem alookup_aset_self {V : Type} (m : List (String × V)) (k : String) (v : V) :
    alookup (aset m k v) k = some v := by
  unfold aset
  by_cases h : m.any (fun p => p.1 = k) = true
  · rw [if_pos h]
    induction m with
    | nil => simp at h
    | cons p rest ih =>
      by_cases hp : p.1 = k
      · simp [alookup, hp]
      · rw [List.map_cons, if_neg hp]
        rw [alookup, if_neg hp]
        apply ih
        simp only [List.any_cons, Bool.or_eq_true, decide_eq_true_eq] at h
        rcases h with h | h
        · exact absurd h hp
        · simpa using h
  · rw [if_neg h]
    induction m with
    | nil => simp [alookup]
    | cons p rest ih =>
      simp only [List.any_cons, Bool.or_eq_true, decide_eq_true_eq] at h
      push_neg at h
      rw [List.cons_append, alookup, if_neg h.1]
      exact ih (by simpa using h.2)

theorem alookup_aset_ne {V : Type} (m : List (String × V)) {k k' : String} (v : V)
    (h : k ≠ k') : alookup (aset m k v) k' = alookup m k' := by
  unfold aset
  by_cases ha : m.any (fun p => p.1 = k) = true
  · rw [if_pos ha]
    clear ha
    induction m with
    | nil => rfl
    | cons p rest ih =>
      by_cases hp : p.1 = k
      · rw [List.map_cons, if_pos hp]
        rw [alookup, alookup, if_neg h, if_neg (hp ▸ h)]
        exact ih
      · rw [List.map_cons, if_neg hp]
        rw [alookup, alookup]
        by_cases hp' : p.1 = k'
        · rw [if_pos hp', if_pos hp']
        · rw [if_neg hp', if_neg hp']
          exact ih
  · rw [if_neg ha]
    clear ha
    induction m with
    | nil => simp [alookup, h]
    | cons p rest ih =>
      rw [List.cons_append, alookup, alookup]
      by_cases hp' : p.1 = k'
      · rw [if_pos hp', if_pos hp']
      · rw [if_neg hp', if_neg hp']
        exact ih

theorem alookup_none_of_not_key {V : Type} {m : List (String × V)} {k : String}
    (h : ∀ p ∈ m, p.1 ≠ k) : alookup m k = none := by
  induction m with
  | nil => rfl
  | cons p rest ih =>
    rw [alookup, if_neg (h p (List.mem_cons_self _ _))]
    exact ih fun q hq => h q (List.mem_cons_of_mem _ hq)

theorem alookup_mem {V : Type} {m : List (String × V)} {k : String} {v : V}
    (h : alookup m k = some v) : (k, v) ∈ m := by
  induction m with
  | nil => simp [alookup] at h
  | cons p rest ih =>
    rw [alookup] at h
    by_cases hp : p.1 = k
    · rw [if_pos hp] at h
      injection h with h
      subst h
      subst hp
      exact List.mem_cons_self _ _
    · rw [if_neg hp] at h
      exact List.mem_cons_of_mem _ (ih h)

theorem mem_alookup_of_nodup {V : Type} {m : List (String × V)} {k : String} {v : V}
    (hnd : (m.map Prod.fst).Nodup) (h : (k, v) ∈ m) : alookup m k = some v := by
  induction m with
  | nil => simp at h
  | cons p rest ih =>
    rw [List.map_cons, List.nodup_cons] at hnd
    rcases List.mem_cons.mp h with rfl | h
    · rw [alookup, if_pos rfl]
    · have hp : p.1 ≠ k := by
        intro hk
        exact hnd.1 (hk ▸ (List.mem_map.mpr ⟨(k, v), h, rfl⟩))
      rw [alookup, if_neg hp]
      exact ih hnd.2 h

/-! ## C9 : the TF-IDF embedder's IDF after the vocabulary cap
(embeddings package)

`float64` logarithms are modelled by `Real.log`.  Note one divergence of
the model: Go's `math.Log(0)` is `-Inf` while `Real.log 0 = 0`; the
claim fails either way (neither is `ln 2`). -/

/-- Mirrors `tokenize` from the embeddings package: the character class
`[a-z0-9]` after lowercasing. -/
def isTermChar (c : Char) : Bool :=
  (decide ('a' ≤ c) && decide (c ≤ 'z')) || (decide ('0' ≤ c) && decide (c ≤ '9'))

/-- `strings.FieldsFunc`: maximal runs of term characters, as strings.
`acc` is the current run, reversed. -/
def splitTermFields : List Char → List Char → List String
  | [], acc => if acc.isEmpty then [] else [String.mk acc.reverse]
  | c :: rest, acc =>
    if isTermChar c then splitTermFields rest (c :: acc)
    else if acc.isEmpty then splitTermFields rest []
    else String.mk acc.reverse :: splitTermFields rest []

/-- Mirrors `tokenize`: lowercase (ASCII mapping of `strings.ToLower`),
split on non-alphanumerics, drop terms shorter than two bytes. -/
def tokenize (text : String) : List String :=
  (splitTermFields (text.data.map Char.toLower) []).filter fun t => decide (2 ≤ t.length)

/-- `EmbeddingDimension`. -/
def EmbeddingDimension : Nat := 100

/-- Mirrors the `TFIDFEmbedder` struct: vocabulary (term → index),
document count, and IDF scores. -/
structure TFIDFEmbedder where
  vocab : List (String × Nat)
  docCount : Nat
  idf : List (String × ℝ)

/-- Mirrors `NewTFIDFEmbedder`. -/
def NewTFIDFEmbedder : TFIDFEmbedder := ⟨[], 0, []⟩

/-- The inner term loop of `BuildVocabulary` for one document.  Returns
the updated vocabulary, the updated `termIndex`, and whether the
function returned early because the index reached the cap. -/
def addVocabTerms : List (String × Nat) → Nat → List String → List String →
    List (String × Nat) × Nat × Bool
  | vocab, termIndex, [], _ => (vocab, termIndex, false)
  | vocab, termIndex, term :: rest, seen =>
    if seen.contains term then addVocabTerms vocab termIndex rest seen
    else
      if (alookup vocab term).isSome then
        addVocabTerms vocab termIndex rest (term :: seen)
      else
        let vocab' := vocab ++ [(term, termIndex)]
        if termIndex + 1 ≥ EmbeddingDimension then (vocab', termIndex + 1, true)
        else addVocabTerms vocab' (termIndex + 1) rest (term :: seen)

/-- The outer document loop of `BuildVocabulary`. -/
def buildVocabLoop : List (String × Nat) → Nat → List String →
    List (String × Nat) × Nat × Bool
  | vocab, termIndex, [] => (vocab, termIndex, false)
  | vocab, termIndex, doc :: rest =>
    let r := addVocabTerms vocab termIndex (tokenize doc) []
    if r.2.2 then r else buildVocabLoop r.1 r.2.1 rest

/-- Mirrors `BuildVocabulary`: on the early return at the vocabulary
cap, the trailing `e.docCount = len(docs)` assignment is *skipped*. -/
def buildVocabulary (e : TFIDFEmbedder) (docs : List String) : TFIDFEmbedder :=
  let r := buildVocabLoop e.vocab 0 docs
  if r.2.2 then { e with vocab := r.1 }
  else { e with vocab := r.1, docCount := docs.length }

/-- The `docFreq` map computed by `ComputeIDF`: for each document, count
each distinct term once. -/
def docFreq (docs : List String) : List (String × Nat) :=
  docs.foldl
    (fun df doc =>
      (((tokenize doc).foldl
        (fun (acc : List (String × Nat) × List String) term =>
          if acc.2.contains term then acc
          else (aset acc.1 term ((alookup acc.1 term).getD 0 + 1), term :: acc.2))
        (df, []))).1)
    []

/-- The IDF-assignment loop of `ComputeIDF`:
`e.idf[term] = log(N / df)` for every term with positive document
frequency. -/
noncomputable def idfFold (N : Nat) (l : List (String × Nat))
    (idf0 : List (String × ℝ)) : List (String × ℝ) :=
  l.foldl
    (fun idf td =>
      if 0 < td.2 then aset idf td.1 (Real.log ((N : ℝ) / (td.2 : ℝ))) else idf)
    idf0

/-- Mirrors `ComputeIDF`. -/
noncomputable def computeIDF (e : TFIDFEmbedder) (docs : List String) : TFIDFEmbedder :=
  { e with idf := idfFold e.docCount (docFreq docs) e.idf }

theorem buildVocabulary_idf (e : TFIDFEmbedder) (docs : List String) :
    (buildVocabulary e docs).idf = e.idf := by
  show (if (buildVocabLoop e.vocab 0 docs).2.2 = true
      then { e with vocab := (buildVocabLoop e.vocab 0 docs).1 }
      else { e with vocab := (buildVocabLoop e.vocab 0 docs).1,
                    docCount := docs.length }).idf = e.idf
  split <;> rfl

theorem idfFold_preserves {N : Nat} {t : String} :
    ∀ {l : List (String × Nat)} (idf0 : List (String × ℝ)),
      (∀ p ∈ l, p.1 ≠ t) → alookup (idfFold N l idf0) t = alookup idf0 t := by
  intro l
  induction l with
  | nil => intro idf0 _; rfl
  | cons p rest ih =>
    intro idf0 h
    show alookup (idfFold N rest _) t = _
    dsimp only
    by_cases hp : 0 < p.2
    · rw [if_pos hp]
      rw [ih _ fun q hq => h q (List.mem_cons_of_mem _ hq)]
      exact alookup_aset_ne _ _ (h p (List.mem_cons_self _ _))
    · rw [if_neg hp]
      exact ih _ fun q hq => h q (List.mem_cons_of_mem _ hq)

theorem alookup_idfFold {N : Nat} {t : String} {df : Nat} (hdf : 0 < df) :
    ∀ {l : List (String × Nat)} (idf0 : List (String × ℝ)),
      (l.map Prod.fst).Nodup → (t, df) ∈ l →
      alookup (idfFold N l idf0) t = some (Real.log ((N : ℝ) / (df : ℝ))) := by
  intro l
  induction l with
  | nil => intro idf0 _ h; simp at h
  | cons p rest ih =>
    intro idf0 hnd hmem
    rw [List.map_cons, List.nodup_cons] at hnd
    rcases List.mem_cons.mp hmem with rfl | hmem
    · show alookup (idfFold N rest _) t = _
      dsimp only
      rw [if_pos hdf]
      rw [idfFold_preserves _ fun q hq hq' => hnd.1 (List.mem_map.mpr ⟨q, hq, hq'⟩)]
      exact alookup_aset_self _ _ _
    · show alookup (idfFold N rest _) t = _
      exact ih _ hnd.2 hmem

/-- Scenario with 100 distinct vocabulary terms (hitting the cap) plus
a second document: the failing input for C9. -/
def capDocs : List String :=
  [String.intercalate " " ((List.range 100).map fun i => "t" ++ toString i),
   "zz zz"]

/-- C9 (code bug): on a document collection with 100 distinct terms,
`BuildVocabulary` hits the `EmbeddingDimension` cap and returns early,
*skipping* the `e.docCount = len(docs)` assignment, so `docCount` stays
0.  `ComputeIDF` then stores `log(0/df)` for every term — here term
`"t0"`, which *is* in the vocabulary, has document frequency 1 out of
N = 2 documents, so the claimed stored value is `ln(2/1) = ln 2 ≠ 0`,
but the stored value is `log 0` (`-Inf` in Go's float64; 0 in this real
model — in either case not `ln 2`). -/
theorem C9_idf_cap_bug :
    (buildVocabulary NewTFIDFEmbedder capDocs).docCount = 0 ∧
    capDocs.length = 2 ∧
    alookup (buildVocabulary NewTFIDFEmbedder capDocs).vocab "t0" = some 0 ∧
    alookup (docFreq capDocs) "t0" = some 1 ∧
    alookup (computeIDF (buildVocabulary NewTFIDFEmbedder capDocs) capDocs).idf "t0"
      = some (Real.log ((0 : ℝ) / 1)) ∧
    Real.log ((0 : ℝ) / 1) = 0 ∧
    Real.log (((capDocs.length : ℕ) : ℝ) / 1) ≠ 0 := by
  have hdc : (buildVocabulary NewTFIDFEmbedder capDocs).docCount = 0 := by decide
  have hnd : ((docFreq capDocs).map Prod.fst).Nodup := by decide
  have hmem : ("t0", 1) ∈ docFreq capDocs := alookup_mem (by decide)
  refine ⟨hdc, by decide, by decide, by decide, ?_, ?_, ?_⟩
  · show alookup (idfFold (buildVocabulary NewTFIDFEmbedder capDocs).docCount
        (docFreq capDocs) (buildVocabulary NewTFIDFEmbedder capDocs).idf) "t0" = _
    rw [hdc, buildVocabulary_idf]
    have := @alookup_idfFold 0 "t0" 1 (by norm_num) (docFreq capDocs)
        NewTFIDFEmbedder.idf hnd hmem
    rw [this]
    norm_num
  · rw [zero_div, Real.log_zero]
  · have : (((capDocs.length : ℕ) : ℝ) / 1) = 2 := by norm_num [capDocs]
    rw [this]
    exact ne_of_gt (Real.log_pos (by norm_num))

/-! ## C7 : Reciprocal Rank Fusion monotonicity (`HybridSearch`,
hybrid_search.go)

Scores are accumulated with exact field arithmetic (`ℚ` in place of
`float64`); `rrfScores` and `metadata` are insertion-ordered
association lists standing in for the Go maps; the unstable
`sort.Slice` by strictly descending score is modelled by a sort that is
`Sorted` for the score-descending relation — the ordering facts proved
hold for every such sorted permutation. -/

/-- Mirrors `SearchResult` (score field exact). -/
structure SearchResult where
  nodeID : String
  score : ℚ
  nodeName : String := ""
  filePath : String := ""
  label : String := ""
  snippet : String := ""
deriving DecidableEq, Inhabited

/-- Mirrors `HybridSearchResult`. -/
structure HybridSearchResult where
  nodeID : String
  score : ℚ
  nodeName : String
  filePath : String
  label : String
  snippet : String
deriving DecidableEq

/-- Go `rrfScores[id] += v` (a missing key reads as 0). -/
def bump (m : List (String × ℚ)) (k : String) (v : ℚ) : List (String × ℚ) :=
  aset m k ((alookup m k).getD 0 + v)

/-- The first-seen metadata insert of the fusion loops. -/
def metaInsert (meta : List (String × SearchResult)) (r : SearchResult) :
    List (String × SearchResult) :=
  if (alookup meta r.nodeID).isSome then meta else meta ++ [(r.nodeID, r)]

/-- One `for i, result := range results` accumulation loop of
`HybridSearch`: add `1/(k+i)` to the id's score, record first-seen
metadata. -/
def rrfAdd (k : Nat) :
    List (String × ℚ) × List (String × SearchResult) → Nat →
      List SearchResult → List (String × ℚ) × List (String × SearchResult)
  | sm, _, [] => sm
  | sm, i, r :: rest =>
    rrfAdd k (bump sm.1 r.nodeID (1 / ((k + i : Nat) : ℚ)), metaInsert sm.2 r)
      (i + 1) rest

/-- The score-descending comparison of the `sort.Slice` call. -/
def scoreGE (a b : HybridSearchResult) : Prop := b.score ≤ a.score

instance : DecidableRel scoreGE :=
  fun a b => inferInstanceAs (Decidable (b.score ≤ a.score))

instance : IsTotal HybridSearchResult scoreGE :=
  ⟨fun a b => le_total b.score a.score⟩

instance : IsTrans HybridSearchResult scoreGE :=
  ⟨fun _ _ _ hab hbc => le_trans hbc hab⟩

/-- The score and metadata maps after both accumulation loops (FTS list
first, then the vector list, both ranked from 0). -/
def rrfState (k : Nat) (fts vec : List SearchResult) :
    List (String × ℚ) × List (String × SearchResult) :=
  rrfAdd k (rrfAdd k ([], []) 0 fts) 0 vec

/-- Mirrors the fusion, sort and truncation of `HybridSearch`, given
the two constituent result lists returned by `FTSSearch` and
`VectorSearch`. -/
def hybridFuse (ftsResults vectorResults : List SearchResult) (limit k : Nat) :
    List HybridSearchResult :=
  let sm := rrfState k ftsResults vectorResults
  let results := sm.1.map fun p =>
    let meta := (alookup sm.2 p.1).getD default
    HybridSearchResult.mk p.1 p.2 meta.nodeName meta.filePath meta.label meta.snippet
  let sorted := List.insertionSort scoreGE results
  if sorted.length > limit then sorted.take limit else sorted

/-- The total RRF contribution of one ranked list to one node ID,
starting at rank `i`. -/
def contrib (k : Nat) : Nat → List SearchResult → String → ℚ
  | _, [], _ => 0
  | i, r :: rest, id =>
    (if r.nodeID = id then 1 / ((k + i : Nat) : ℚ) else 0) + contrib k (i + 1) rest id

/-- The accumulated score of an ID (0 when absent). -/
def valAt (m : List (String × ℚ)) (id : String) : ℚ :=
  (alookup m id).getD 0

theorem valAt_bump (m : List (String × ℚ)) (key : String) (v : ℚ) (id : String) :
    valAt (bump m key v) id = valAt m id + (if key = id then v else 0) := by
  unfold bump valAt
  by_cases h : key = id
  · subst h
    rw [alookup_aset_self]
    simp
  · rw [alookup_aset_ne _ _ h]
    simp [h]

theorem valAt_rrfAdd (k : Nat) (id : String) :
    ∀ (rs : List SearchResult) (i : Nat)
      (sm : List (String × ℚ) × List (String × SearchResult)),
      valAt (rrfAdd k sm i rs).1 id = valAt sm.1 id + contrib k i rs id := by
  intro rs
  induction rs with
  | nil =>
    intro i sm
    show valAt sm.1 id = valAt sm.1 id + 0
    rw [add_zero]
  | cons r rest ih =>
    intro i sm
    show valAt (rrfAdd k (bump sm.1 r.nodeID (1 / ((k + i : Nat) : ℚ)),
        metaInsert sm.2 r) (i + 1) rest).1 id = _
    rw [ih, valAt_bump]
    show _ = valAt sm.1 id +
      ((if r.nodeID = id then 1 / ((k + i : Nat) : ℚ) else 0) + contrib k (i + 1) rest id)
    ring

theorem contrib_of_not_mem (k : Nat) (id : String) :
    ∀ (rs : List SearchResult) (i : Nat),
      id ∉ rs.map (fun r => r.nodeID) → contrib k i rs id = 0 := by
  intro rs
  induction rs with
  | nil => intro i _; rfl
  | cons r rest ih =>
    intro i h
    rw [List.map_cons, List.mem_cons] at h
    push_neg at h
    rw [contrib, if_neg (fun hc => h.1 hc.symm), ih _ h.2, add_zero]

theorem contrib_indexOf (k : Nat) (id : String) :
    ∀ (rs : List SearchResult) (i : Nat),
      (rs.map (fun r => r.nodeID)).Nodup →
      id ∈ rs.map (fun r => r.nodeID) →
      contrib k i rs id =
        1 / ((k + i + (rs.map (fun r => r.nodeID)).indexOf id : Nat) : ℚ) := by
  intro rs
  induction rs with
  | nil => intro i _ h; simp at h
  | cons r rest ih =>
    intro i hnd hmem
    rw [List.map_cons, List.nodup_cons] at hnd
    by_cases hr : r.nodeID = id
    · subst hr
      rw [contrib, if_pos rfl, contrib_of_not_mem k _ rest (i + 1) hnd.1, add_zero,
        List.map_cons, List.indexOf_cons_self, Nat.add_zero]
    · rw [List.map_cons, List.mem_cons] at hmem
      rcases hmem with hmem | hmem
      · exact absurd hmem.symm hr
      · rw [contrib, if_neg hr, ih (i + 1) hnd.2 hmem, zero_add, List.map_cons,
          List.indexOf_cons_ne _ hr]
        have harith : k + (i + 1) + (rest.map (fun r => r.nodeID)).indexOf id
            = k + i + ((rest.map (fun r => r.nodeID)).indexOf id).succ := by omega
        rw [harith]

theorem alookup_isSome_of_mem_keys {V : Type} {m : List (String × V)} {id : String}
    (h : id ∈ m.map Prod.fst) : ∃ v, alookup m id = some v := by
  induction m with
  | nil => simp at h
  | cons p rest ih =>
    rw [alookup]
    by_cases hp : p.1 = id
    · rw [if_pos hp]
      exact ⟨p.2, rfl⟩
    · rw [if_neg hp]
      rw [List.map_cons, List.mem_cons] at h
      rcases h with h | h
      · exact absurd h.symm hp
      · exact ih h

theorem valAt_ne_zero_mem {m : List (String × ℚ)} {id : String}
    (h : valAt m id ≠ 0) : id ∈ m.map Prod.fst := by
  by_contra hmem
  apply h
  unfold valAt
  rw [alookup_none_of_not_key fun p hp heq => hmem (List.mem_map.mpr ⟨p, hp, heq⟩)]
  rfl

theorem aset_keys_nodup {V : Type} {m : List (String × V)} (k : String) (v : V)
    (h : (m.map Prod.fst).Nodup) : ((aset m k v).map Prod.fst).Nodup := by
  unfold aset
  by_cases ha : m.any (fun p => p.1 = k) = true
  · rw [if_pos ha]
    have heq : (m.map fun p => if p.1 = k then (k, v) else p).map Prod.fst
        = m.map Prod.fst := by
      rw [List.map_map]
      apply List.map_congr_left
      intro p _
      by_cases hp : p.1 = k
      · simp [hp]
      · simp [hp]
    rw [heq]
    exact h
  · rw [if_neg ha]
    have hk : k ∉ m.map Prod.fst := by
      intro hk
      obtain ⟨p, hp, hpk⟩ := List.mem_map.mp hk
      apply ha
      rw [List.any_eq_true]
      exact ⟨p, hp, by simp [hpk]⟩
    rw [List.map_append]
    simp only [List.map_cons, List.map_nil]
    rw [List.nodup_append]
    exact ⟨h, List.nodup_singleton k, by
      intro a hak hmem
      rw [List.mem_singleton] at hmem
      exact hk (hmem ▸ hak)⟩

theorem rrfAdd_keys_nodup (k : Nat) :
    ∀ (rs : List SearchResult) (i : Nat)
      (sm : List (String × ℚ) × List (String × SearchResult)),
      (sm.1.map Prod.fst).Nodup → ((rrfAdd k sm i rs).1.map Prod.fst).Nodup := by
  intro rs
  induction rs with
  | nil => intro i sm h; exact h
  | cons r rest ih =>
    intro i sm h
    exact ih (i + 1) _ (aset_keys_nodup _ _ h)

theorem rrfState_keys_nodup (k : Nat) (fts vec : List SearchResult) :
    ((rrfState k fts vec).1.map Prod.fst).Nodup :=
  rrfAdd_keys_nodup k vec 0 _ (rrfAdd_keys_nodup k fts 0 ([], []) List.nodup_nil)

theorem valAt_rrfState (k : Nat) (fts vec : List SearchResult) (id : String) :
    valAt (rrfState k fts vec).1 id =
      contrib k 0 fts id + contrib k 0 vec id := by
  unfold rrfState
  rw [valAt_rrfAdd, valAt_rrfAdd]
  show valAt ([] : List (String × ℚ)) id + _ + _ = _
  rw [show valAt ([] : List (String × ℚ)) id = 0 from rfl, zero_add]

theorem one_div_rank_pos (k i : Nat) (hk : 0 < k) :
    (0 : ℚ) < 1 / ((k + i : Nat) : ℚ) := by
  apply div_pos one_pos
  exact_mod_cast Nat.add_pos_left hk i

theorem one_div_rank_lt (k i j : Nat) (hk : 0 < k) (hij : i < j) :
    1 / ((k + j : Nat) : ℚ) < 1 / ((k + i : Nat) : ℚ) := by
  apply one_div_lt_one_div_of_lt
  · exact_mod_cast Nat.add_pos_left hk i
  · exact_mod_cast Nat.add_lt_add_left hij k

/-- C7: with a positive RRF constant `k` and constituent result lists
with distinct node IDs, if node `x` and node `y` both appear in both
lists and `x` is ranked strictly higher (smaller 0-based index) than
`y` in both, then in the fused, score-descending, truncated output of
`HybridSearch`, wherever `y` appears `x` appears strictly earlier. -/
theorem C7_rrf_monotonic (fts vec : List SearchResult) (limit k : Nat) (hk : 0 < k)
    (hn1 : (fts.map (fun r => r.nodeID)).Nodup)
    (hn2 : (vec.map (fun r => r.nodeID)).Nodup)
    (x y : String) (hxy : x ≠ y)
    (hx1 : x ∈ fts.map (fun r => r.nodeID)) (hx2 : x ∈ vec.map (fun r => r.nodeID))
    (hy1 : y ∈ fts.map (fun r => r.nodeID)) (hy2 : y ∈ vec.map (fun r => r.nodeID))
    (hr1 : (fts.map (fun r => r.nodeID)).indexOf x <
        (fts.map (fun r => r.nodeID)).indexOf y)
    (hr2 : (vec.map (fun r => r.nodeID)).indexOf x <
        (vec.map (fun r => r.nodeID)).indexOf y) :
    ∀ (j : Nat) (ry : HybridSearchResult),
      (hybridFuse fts vec limit k).get? j = some ry → ry.nodeID = y →
      ∃ (i : Nat) (rx : HybridSearchResult), i < j ∧
        (hybridFuse fts vec limit k).get? i = some rx ∧ rx.nodeID = x := by
  intro j ry hj hyid
  -- abbreviations
  set sm := rrfState k fts vec with hsm
  set results := sm.1.map (fun p =>
    let meta := (alookup sm.2 p.1).getD default
    HybridSearchResult.mk p.1 p.2 meta.nodeName meta.filePath meta.label meta.snippet)
    with hres
  set sorted := List.insertionSort scoreGE results with hsorted
  have hout : hybridFuse fts vec limit k =
      if sorted.length > limit then sorted.take limit else sorted := rfl
  -- scores
  have hvx : valAt sm.1 x = 1 / ((k + (fts.map (fun r => r.nodeID)).indexOf x : Nat) : ℚ)
      + 1 / ((k + (vec.map (fun r => r.nodeID)).indexOf x : Nat) : ℚ) := by
    rw [hsm, valAt_rrfState, contrib_indexOf k x fts 0 hn1 hx1,
      contrib_indexOf k x vec 0 hn2 hx2]
    have e1 : k + 0 + (fts.map (fun r => r.nodeID)).indexOf x
        = k + (fts.map (fun r => r.nodeID)).indexOf x := by omega
    have e2 : k + 0 + (vec.map (fun r => r.nodeID)).indexOf x
        = k + (vec.map (fun r => r.nodeID)).indexOf x := by omega
    rw [e1, e2]
  have hvy : valAt sm.1 y = 1 / ((k + (fts.map (fun r => r.nodeID)).indexOf y : Nat) : ℚ)
      + 1 / ((k + (vec.map (fun r => r.nodeID)).indexOf y : Nat) : ℚ) := by
    rw [hsm, valAt_rrfState, contrib_indexOf k y fts 0 hn1 hy1,
      contrib_indexOf k y vec 0 hn2 hy2]
    have e1 : k + 0 + (fts.map (fun r => r.nodeID)).indexOf y
        = k + (fts.map (fun r => r.nodeID)).indexOf y := by omega
    have e2 : k + 0 + (vec.map (fun r => r.nodeID)).indexOf y
        = k + (vec.map (fun r => r.nodeID)).indexOf y := by omega
    rw [e1, e2]
  have hlt : valAt sm.1 y < valAt sm.1 x := by
    rw [hvx, hvy]
    exact add_lt_add (one_div_rank_lt k _ _ hk hr1) (one_div_rank_lt k _ _ hk hr2)
  have hxpos : 0 < valAt sm.1 x := by
    rw [hvx]
    exact add_pos (one_div_rank_pos k _ hk) (one_div_rank_pos k _ hk)
  have hnd : (sm.1.map Prod.fst).Nodup := rrfState_keys_nodup k fts vec
  -- the x element of the fused results
  have hxkeys : x ∈ sm.1.map Prod.fst := valAt_ne_zero_mem (ne_of_gt hxpos)
  obtain ⟨vx, hvx'⟩ := alookup_isSome_of_mem_keys hxkeys
  have hvxval : vx = valAt sm.1 x := by rw [valAt, hvx']; rfl
  have hxmem : (x, vx) ∈ sm.1 := alookup_mem hvx'
  set rx : HybridSearchResult :=
    (let meta := (alookup sm.2 x).getD default
     HybridSearchResult.mk x vx meta.nodeName meta.filePath meta.label meta.snippet)
    with hrx
  have hrxmem : rx ∈ results := by
    rw [hres]
    exact List.mem_map.mpr ⟨(x, vx), hxmem, rfl⟩
  have hrxsorted : rx ∈ sorted := by
    rw [hsorted]
    exact (List.perm_insertionSort scoreGE results).mem_iff.mpr hrxmem
  obtain ⟨i, hi⟩ := List.mem_iff_get?.mp hrxsorted
  -- identify ry's score
  have hjsorted : sorted.get? j = some ry ∧ (sorted.length > limit → j < limit) := by
    rw [hout] at hj
    by_cases hlen : sorted.length > limit
    · rw [if_pos hlen] at hj
      have hjlt : j < (sorted.take limit).length := by
        by_contra hc
        rw [List.get?_eq_none.mpr (Nat.le_of_not_lt hc)] at hj
        exact Option.noConfusion hj
      rw [List.length_take] at hjlt
      have hjlim : j < limit := lt_of_lt_of_le hjlt (min_le_left _ _)
      exact ⟨by rw [← List.get?_take hjlim]; exact hj, fun _ => hjlim⟩
    · rw [if_neg hlen] at hj
      exact ⟨hj, fun h => absurd h hlen⟩
  have hrymem : ry ∈ results := by
    rw [hsorted] at hjsorted
    exact (List.perm_insertionSort scoreGE results).mem_iff.mp
      (List.get?_mem hjsorted.1)
  have hryscore : ry.score = valAt sm.1 y := by
    rw [hres] at hrymem
    obtain ⟨p, hp, hpeq⟩ := List.mem_map.mp hrymem
    have hp1 : p.1 = y := by rw [← hyid, ← hpeq]
    have : alookup sm.1 p.1 = some p.2 := mem_alookup_of_nodup hnd (by
      rw [show (p.1, p.2) = p from rfl]; exact hp)
    rw [← hpeq]
    show p.2 = valAt sm.1 y
    rw [← hp1, valAt, this]
    rfl
  have hrxscore : rx.score = valAt sm.1 x := by
    rw [hrx]
    exact hvxval
  -- position comparison via sortedness
  have hsort : sorted.Sorted scoreGE := by
    rw [hsorted]
    exact List.sorted_insertionSort scoreGE results
  have hij : i < j := by
    rcases Nat.lt_trichotomy i j with h | h | h
    · exact h
    · exfalso
      rw [h, hjsorted.1] at hi
      injection hi with hi
      rw [hi] at hyid
      exact hxy (by rw [← hyid, hrx])
    · exfalso
      obtain ⟨hjlen, hjget⟩ := List.get?_eq_some.mp hjsorted.1
      obtain ⟨hilen, higet⟩ := List.get?_eq_some.mp hi
      have := (List.pairwise_iff_get.mp hsort) ⟨j, hjlen⟩ ⟨i, hilen⟩ h
      rw [hjget, higet] at this
      -- this : scoreGE ry rx, i.e. rx.score ≤ ry.score
      rw [scoreGE, hrxscore, hryscore] at this
      exact absurd this (not_le.mpr hlt)
  refine ⟨i, rx, hij, ?_, by rw [hrx]⟩
  rw [hout]
  by_cases hlen : sorted.length > limit
  · rw [if_pos hlen]
    have hilim : i < limit := lt_trans hij (hjsorted.2 hlen)
    rw [List.get?_take hilim]
    exact hi
  · rw [if_neg hlen]
    exact hi

/-- The lists used by the C7 witness. -/
def rrfWitnessList : List SearchResult :=
  [{ nodeID := "x", score := 0 }, { nodeID := "y", score := 0 }]

theorem rrfWitness_eval :
    hybridFuse rrfWitnessList rrfWitnessList 10 60 =
      [HybridSearchResult.mk "x" (1 / 30) "" "" "" "",
       HybridSearchResult.mk "y" (2 / 61) "" "" "" ""] := by
  norm_num +decide [hybridFuse, rrfState, rrfAdd, bump, metaInsert, aset, alookup,
    valAt, List.insertionSort, List.orderedInsert, scoreGE, rrfWitnessList]

/-- Witness for C7 at concrete two-element result lists (`x` ranked
first in both): in the fused output, `y` sits at index 1 and `x`
strictly earlier. -/
theorem C7_witness :
    ∃ (i : Nat) (rx : HybridSearchResult), i < 1 ∧
      (hybridFuse rrfWitnessList rrfWitnessList 10 60).get? i = some rx ∧
      rx.nodeID = "x" :=
  C7_rrf_monotonic rrfWitnessList rrfWitnessList 10 60 (by decide)
    (by decide) (by decide) "x" "y" (by decide)
    (by decide) (by decide) (by decide) (by decide) (by decide) (by decide)
    1 (HybridSearchResult.mk "y" (2 / 61) "" "" "" "")
    (by rw [rrfWitness_eval]; rfl) rfl

/-! ## C2 : `KnowledgeGraph.RemoveNode` cascade (graph.go)

The full indexed in-memory graph: primary node/relationship maps plus
the four secondary indexes, each Go map modelled as an association
list.  Nested map mutation (`delete(g.byLabel[l], id)` and
`g.outgoing[src][id] = rel`) becomes functional update of the inner
list at the outer key, which is equivalent because each inner map
object is reachable from exactly one outer key. -/

/-- Reading a nested Go map: `m[k]` (the nil map when the key is
absent). -/
def ainner {V : Type} (m : List (String × List (String × V))) (k : String) :
    List (String × V) :=
  (alookup m k).getD []

/-- `delete(m[k], innerKey)`: mutates the inner map when the outer key
is present; deleting from a nil inner map is a no-op. -/
def adelIn {V : Type} (m : List (String × List (String × V))) (k innerKey : String) :
    List (String × List (String × V)) :=
  m.map fun p => if p.1 = k then (p.1, adel p.2 innerKey) else p

/-- `if m[k] == nil { m[k] = make(...) }; m[k][innerKey] = v`. -/
def asetIn {V : Type} (m : List (String × List (String × V))) (k innerKey : String)
    (v : V) : List (String × List (String × V)) :=
  aset m k (aset (ainner m k) innerKey v)

/-- Mirrors the `KnowledgeGraph` struct with its secondary indexes. -/
structure KnowledgeGraph where
  nodes : List (String × GraphNode)
  relationships : List (String × GraphRelationship)
  byLabel : List (String × List (String × GraphNode))
  byRelType : List (String × List (String × GraphRelationship))
  outgoing : List (String × List (String × GraphRelationship))
  incoming : List (String × List (String × GraphRelationship))
deriving DecidableEq

/-- Mirrors `NewKnowledgeGraph`. -/
def newKnowledgeGraph : KnowledgeGraph := ⟨[], [], [], [], [], []⟩

/-- First half of `AddNode`: remove the old node from the label index
if the label changed. -/
def addNodeDeleteOld (g : KnowledgeGraph) (node : GraphNode) : KnowledgeGraph :=
  match alookup g.nodes node.id with
  | some old =>
    if old.label ≠ node.label then
      { g with byLabel := adelIn g.byLabel old.label node.id }
    else g
  | none => g

/-- Mirrors `KnowledgeGraph.AddNode`: label-index fixup, then insert
into the node map and the label index. -/
def addNode (g : KnowledgeGraph) (node : GraphNode) : KnowledgeGraph :=
  { addNodeDeleteOld g node with
    nodes := aset (addNodeDeleteOld g node).nodes node.id node,
    byLabel := asetIn (addNodeDeleteOld g node).byLabel node.label node.id node }

/-- First half of `AddRelationship`: remove the old relationship with
the same ID from the three indexes. -/
def addRelDeleteOld (g : KnowledgeGraph) (rel : GraphRelationship) : KnowledgeGraph :=
  match alookup g.relationships rel.id with
  | some old =>
    { g with byRelType := adelIn g.byRelType old.type rel.id,
             outgoing := adelIn g.outgoing old.source rel.id,
             incoming := adelIn g.incoming old.target rel.id }
  | none => g

/-- Second half of `AddRelationship`: store the relationship and index
it by type, source and target. -/
def addRelInsert (g : KnowledgeGraph) (rel : GraphRelationship) : KnowledgeGraph :=
  { g with relationships := aset g.relationships rel.id rel,
           byRelType := asetIn g.byRelType rel.type rel.id rel,
           outgoing := asetIn g.outgoing rel.source rel.id rel,
           incoming := asetIn g.incoming rel.target rel.id rel }

/-- Mirrors `KnowledgeGraph.AddRelationship`. -/
def addRelationship (g : KnowledgeGraph) (rel : GraphRelationship) : KnowledgeGraph :=
  addRelInsert (addRelDeleteOld g rel) rel

/-- One iteration of the outgoing-relationship loop of
`cascadeRelationshipsForNode`. -/
def cascadeOutStep (acc : KnowledgeGraph) (p : String × GraphRelationship) :
    KnowledgeGraph :=
  { acc with relationships := adel acc.relationships p.2.id,
             byRelType := adelIn acc.byRelType p.2.type p.2.id,
             incoming := adelIn acc.incoming p.2.target p.2.id }

/-- One iteration of the incoming-relationship loop of
`cascadeRelationshipsForNode`. -/
def cascadeInStep (acc : KnowledgeGraph) (p : String × GraphRelationship) :
    KnowledgeGraph :=
  { acc with relationships := adel acc.relationships p.2.id,
             byRelType := adelIn acc.byRelType p.2.type p.2.id,
             outgoing := adelIn acc.outgoing p.2.source p.2.id }

/-- The outgoing loop of `cascadeRelationshipsForNode`: iterate over
`outRels := g.outgoing[nodeID]` deleting each relationship.  (When the
key is absent the Go code skips the block; here the fold over the empty
list and the subsequent delete are both no-ops, which is the same
state.) -/
def cascadeOutPhase (g : KnowledgeGraph) (nodeID : String) : KnowledgeGraph :=
  (ainner g.outgoing nodeID).foldl cascadeOutStep g

/-- `delete(g.outgoing, nodeID)` after the outgoing loop. -/
def cascadeMid (g : KnowledgeGraph) (nodeID : String) : KnowledgeGraph :=
  { cascadeOutPhase g nodeID with
    outgoing := adel (cascadeOutPhase g nodeID).outgoing nodeID }

/-- The incoming loop: `inRels := g.incoming[nodeID]` is read from the
state *after* the outgoing pass, exactly as in the Go code. -/
def cascadeInPhase (g : KnowledgeGraph) (nodeID : String) : KnowledgeGraph :=
  (ainner (cascadeMid g nodeID).incoming nodeID).foldl cascadeInStep
    (cascadeMid g nodeID)

/-- Mirrors `cascadeRelationshipsForNode`: outgoing loop, drop the
outgoing map, incoming loop, drop the incoming map. -/
def cascadeRelationshipsForNode (g : KnowledgeGraph) (nodeID : String) :
    KnowledgeGraph :=
  { cascadeInPhase g nodeID with
    incoming := adel (cascadeInPhase g nodeID).incoming nodeID }

/-- Mirrors `KnowledgeGraph.RemoveNode`: a no-op returning `false` when
the ID is not in the node map; otherwise remove the node from the
primary and label maps and cascade. -/
def removeNode (g : KnowledgeGraph) (nodeID : String) : KnowledgeGraph × Bool :=
  match alookup g.nodes nodeID with
  | none => (g, false)
  | some node =>
    let g1 := { g with nodes := adel g.nodes nodeID,
                       byLabel := adelIn g.byLabel node.label nodeID }
    (cascadeRelationshipsForNode g1 nodeID, true)

/-- The index coherence that `AddRelationship` maintains and the graph's
query methods rely on: key–value coherence of the relationship maps,
and agreement of the three secondary indexes with the primary
relationship map. -/
def WFIndexes (g : KnowledgeGraph) : Prop :=
  (g.relationships.map Prod.fst).Nodup ∧
  (g.byRelType.map Prod.fst).Nodup ∧
  (g.outgoing.map Prod.fst).Nodup ∧
  (g.incoming.map Prod.fst).Nodup ∧
  (∀ p ∈ g.relationships, p.2.id = p.1 ∧
    (p.1, p.2) ∈ ainner g.outgoing p.2.source ∧
    (p.1, p.2) ∈ ainner g.incoming p.2.target) ∧
  (∀ q ∈ g.outgoing, ∀ p ∈ q.2, p.2.id = p.1 ∧ p.2.source = q.1 ∧
    alookup g.relationships p.1 = some p.2) ∧
  (∀ q ∈ g.incoming, ∀ p ∈ q.2, p.2.id = p.1 ∧ p.2.target = q.1 ∧
    alookup g.relationships p.1 = some p.2) ∧
  (∀ q ∈ g.byRelType, ∀ p ∈ q.2, p.2.id = p.1 ∧ p.2.type = q.1 ∧
    alookup g.relationships p.1 = some p.2)

/-- No relationship mentioning `v` as source or target survives
anywhere: primary map, type index, or either adjacency index. -/
def NoIncidentRels (g : KnowledgeGraph) (v : String) : Prop :=
  (∀ p ∈ g.relationships, p.2.source ≠ v ∧ p.2.target ≠ v) ∧
  (∀ q ∈ g.byRelType, ∀ p ∈ q.2, p.2.source ≠ v ∧ p.2.target ≠ v) ∧
  (∀ q ∈ g.outgoing, ∀ p ∈ q.2, p.2.source ≠ v ∧ p.2.target ≠ v) ∧
  (∀ q ∈ g.incoming, ∀ p ∈ q.2, p.2.source ≠ v ∧ p.2.target ≠ v)

/-! ### Association-list lemmas for the cascade -/

theorem mem_adel {V : Type} {m : List (String × V)} {k : String} {p : String × V} :
    p ∈ adel m k ↔ p ∈ m ∧ p.1 ≠ k := by
  simp [adel]

theorem mem_foldl_adel {V α : Type} (key : α → String) :
    ∀ (l : List α) (m : List (String × V)) (p : String × V),
      p ∈ l.foldl (fun acc a => adel acc (key a)) m ↔
        p ∈ m ∧ ∀ a ∈ l, p.1 ≠ key a := by
  intro l
  induction l with
  | nil => intro m p; simp
  | cons a rest ih =>
    intro m p
    rw [List.foldl_cons, ih, mem_adel]
    constructor
    · rintro ⟨⟨hm, hne⟩, hr⟩
      refine ⟨hm, fun b hb => ?_⟩
      rcases List.mem_cons.mp hb with rfl | hb
      · exact hne
      · exact hr b hb
    · rintro ⟨hm, hall⟩
      exact ⟨⟨hm, hall a (List.mem_cons_self _ _)⟩,
        fun b hb => hall b (List.mem_cons_of_mem _ hb)⟩

theorem alookup_adelIn {V : Type} (m : List (String × List (String × V)))
    (k ik t : String) :
    alookup (adelIn m k ik) t
      = (alookup m t).map fun inner => if k = t then adel inner ik else inner := by
  induction m with
  | nil => rfl
  | cons p rest ih =>
    show alookup ((if p.1 = k then (p.1, adel p.2 ik) else p) :: adelIn rest k ik) t = _
    by_cases hk : p.1 = k
    · rw [if_pos hk]
      by_cases hp : p.1 = t
      · rw [alookup, alookup, if_pos hp, if_pos hp, Option.map_some',
          if_pos (hk.symm.trans hp)]
      · rw [alookup, alookup, if_neg hp, if_neg hp, ih]
    · rw [if_neg hk]
      by_cases hp : p.1 = t
      · rw [alookup, alookup, if_pos hp, if_pos hp, Option.map_some',
          if_neg (fun hkt => hk (hp.trans hkt.symm))]
      · rw [alookup, alookup, if_neg hp, if_neg hp, ih]

theorem ainner_adelIn {V : Type} (m : List (String × List (String × V)))
    (k ik t : String) :
    ainner (adelIn m k ik) t
      = if k = t then adel (ainner m t) ik else ainner m t := by
  unfold ainner
  rw [alookup_adelIn]
  cases alookup m t with
  | none => simp [adel]
  | some inner => simp

theorem ainner_foldl_adelIn {V α : Type} (okey ikey : α → String) (t : String) :
    ∀ (l : List α) (m : List (String × List (String × V))),
      ainner (l.foldl (fun acc a => adelIn acc (okey a) (ikey a)) m) t
        = l.foldl (fun inner a => if okey a = t then adel inner (ikey a) else inner)
            (ainner m t) := by
  intro l
  induction l with
  | nil => intro m; rfl
  | cons a rest ih =>
    intro m
    rw [List.foldl_cons, List.foldl_cons, ih, ainner_adelIn]

theorem mem_foldl_cond_adel {V α : Type} (okey ikey : α → String) (t : String) :
    ∀ (l : List α) (inner : List (String × V)) (p : String × V),
      p ∈ l.foldl (fun acc a => if okey a = t then adel acc (ikey a) else acc) inner ↔
        p ∈ inner ∧ ∀ a ∈ l, okey a = t → p.1 ≠ ikey a := by
  intro l
  induction l with
  | nil => intro inner p; simp
  | cons a rest ih =>
    intro inner p
    rw [List.foldl_cons, ih]
    by_cases ha : okey a = t
    · rw [if_pos ha, mem_adel]
      constructor
      · rintro ⟨⟨hm, hne⟩, hr⟩
        refine ⟨hm, fun b hb hbt => ?_⟩
        rcases List.mem_cons.mp hb with rfl | hb
        · exact hne
        · exact hr b hb hbt
      · rintro ⟨hm, hall⟩
        exact ⟨⟨hm, hall a (List.mem_cons_self _ _) ha⟩,
          fun b hb => hall b (List.mem_cons_of_mem _ hb)⟩
    · rw [if_neg ha]
      constructor
      · rintro ⟨hm, hr⟩
        refine ⟨hm, fun b hb hbt => ?_⟩
        rcases List.mem_cons.mp hb with rfl | hb
        · exact absurd hbt ha
        · exact hr b hb hbt
      · rintro ⟨hm, hall⟩
        exact ⟨hm, fun b hb => hall b (List.mem_cons_of_mem _ hb)⟩

theorem mem_adelIn {V : Type} {m : List (String × List (String × V))} {k ik : String}
    {q : String × List (String × V)} (hq : q ∈ adelIn m k ik) :
    ∃ q0 ∈ m, q0.1 = q.1 ∧ ∀ p ∈ q.2, p ∈ q0.2 ∧ (k = q.1 → p.1 ≠ ik) := by
  rcases List.mem_map.mp hq with ⟨q0, hq0, heq⟩
  by_cases hk : q0.1 = k
  · rw [if_pos hk] at heq
    cases heq
    exact ⟨q0, hq0, rfl,
      fun p hp => ⟨(mem_adel.mp hp).1, fun _ => (mem_adel.mp hp).2⟩⟩
  · rw [if_neg hk] at heq
    cases heq
    exact ⟨q, hq0, rfl, fun p hp => ⟨hp, fun hkq => absurd hkq.symm hk⟩⟩

theorem mem_foldl_adelIn {V α : Type} (okey ikey : α → String) :
    ∀ (l : List α) (m : List (String × List (String × V)))
      (q : String × List (String × V)),
      q ∈ l.foldl (fun acc a => adelIn acc (okey a) (ikey a)) m →
      ∃ q0 ∈ m, q0.1 = q.1 ∧
        ∀ p ∈ q.2, p ∈ q0.2 ∧ ∀ a ∈ l, okey a = q.1 → p.1 ≠ ikey a := by
  intro l
  induction l with
  | nil =>
    intro m q hq
    exact ⟨q, hq, rfl, fun p hp => ⟨hp, by simp⟩⟩
  | cons a rest ih =>
    intro m q hq
    rw [List.foldl_cons] at hq
    rcases ih (adelIn m (okey a) (ikey a)) q hq with ⟨q1, hq1, hkey1, hp1⟩
    rcases mem_adelIn hq1 with ⟨q0, hq0, hkey0, hp0⟩
    refine ⟨q0, hq0, hkey0.trans hkey1, fun p hp => ?_⟩
    rcases hp1 p hp with ⟨hpq1, hrest⟩
    rcases hp0 p hpq1 with ⟨hpq0, hhead⟩
    refine ⟨hpq0, fun b hb hbt => ?_⟩
    rcases List.mem_cons.mp hb with rfl | hb
    · exact hhead (hbt.trans hkey1.symm)
    · exact hrest b hb hbt

/-! ### Field projections of the cascade phases -/

theorem foldl_outStep_relationships :
    ∀ (l : List (String × GraphRelationship)) (g : KnowledgeGraph),
      (l.foldl cascadeOutStep g).relationships
        = l.foldl (fun m p => adel m p.2.id) g.relationships := by
  intro l
  induction l with
  | nil => intro g; rfl
  | cons p rest ih =>
    intro g
    rw [List.foldl_cons, List.foldl_cons]
    exact ih _

theorem foldl_outStep_byRelType :
    ∀ (l : List (String × GraphRelationship)) (g : KnowledgeGraph),
      (l.foldl cascadeOutStep g).byRelType
        = l.foldl (fun m p => adelIn m p.2.type p.2.id) g.byRelType := by
  intro l
  induction l with
  | nil => intro g; rfl
  | cons p rest ih =>
    intro g
    rw [List.foldl_cons, List.foldl_cons]
    exact ih _

theorem foldl_outStep_incoming :
    ∀ (l : List (String × GraphRelationship)) (g : KnowledgeGraph),
      (l.foldl cascadeOutStep g).incoming
        = l.foldl (fun m p => adelIn m p.2.target p.2.id) g.incoming := by
  intro l
  induction l with
  | nil => intro g; rfl
  | cons p rest ih =>
    intro g
    rw [List.foldl_cons, List.foldl_cons]
    exact ih _

theorem foldl_outStep_outgoing :
    ∀ (l : List (String × GraphRelationship)) (g : KnowledgeGraph),
      (l.foldl cascadeOutStep g).outgoing = g.outgoing := by
  intro l
  induction l with
  | nil => intro g; rfl
  | cons p rest ih =>
    intro g
    rw [List.foldl_cons]
    exact ih _

theorem foldl_inStep_relationships :
    ∀ (l : List (String × GraphRelationship)) (g : KnowledgeGraph),
      (l.foldl cascadeInStep g).relationships
        = l.foldl (fun m p => adel m p.2.id) g.relationships := by
  intro l
  induction l with
  | nil => intro g; rfl
  | cons p rest ih =>
    intro g
    rw [List.foldl_cons, List.foldl_cons]
    exact ih _

theorem foldl_inStep_byRelType :
    ∀ (l : List (String × GraphRelationship)) (g : KnowledgeGraph),
      (l.foldl cascadeInStep g).byRelType
        = l.foldl (fun m p => adelIn m p.2.type p.2.id) g.byRelType := by
  intro l
  induction l with
  | nil => intro g; rfl
  | cons p rest ih =>
    intro g
    rw [List.foldl_cons, List.foldl_cons]
    exact ih _

theorem foldl_inStep_outgoing :
    ∀ (l : List (String × GraphRelationship)) (g : KnowledgeGraph),
      (l.foldl cascadeInStep g).outgoing
        = l.foldl (fun m p => adelIn m p.2.source p.2.id) g.outgoing := by
  intro l
  induction l with
  | nil => intro g; rfl
  | cons p rest ih =>
    intro g
    rw [List.foldl_cons, List.foldl_cons]
    exact ih _

theorem foldl_inStep_incoming :
    ∀ (l : List (String × GraphRelationship)) (g : KnowledgeGraph),
      (l.foldl cascadeInStep g).incoming = g.incoming := by
  intro l
  induction l with
  | nil => intro g; rfl
  | cons p rest ih =>
    intro g
    rw [List.foldl_cons]
    exact ih _

theorem outPhase_relationships (g : KnowledgeGraph) (v : String) :
    (cascadeOutPhase g v).relationships
      = (ainner g.outgoing v).foldl (fun m p => adel m p.2.id) g.relationships :=
  foldl_outStep_relationships _ _

theorem outPhase_byRelType (g : KnowledgeGraph) (v : String) :
    (cascadeOutPhase g v).byRelType
      = (ainner g.outgoing v).foldl (fun m p => adelIn m p.2.type p.2.id) g.byRelType :=
  foldl_outStep_byRelType _ _

theorem outPhase_incoming (g : KnowledgeGraph) (v : String) :
    (cascadeOutPhase g v).incoming
      = (ainner g.outgoing v).foldl (fun m p => adelIn m p.2.target p.2.id) g.incoming :=
  foldl_outStep_incoming _ _

theorem outPhase_outgoing (g : KnowledgeGraph) (v : String) :
    (cascadeOutPhase g v).outgoing = g.outgoing :=
  foldl_outStep_outgoing _ _

theorem mid_relationships (g : KnowledgeGraph) (v : String) :
    (cascadeMid g v).relationships
      = (ainner g.outgoing v).foldl (fun m p => adel m p.2.id) g.relationships :=
  outPhase_relationships g v

theorem mid_byRelType (g : KnowledgeGraph) (v : String) :
    (cascadeMid g v).byRelType
      = (ainner g.outgoing v).foldl (fun m p => adelIn m p.2.type p.2.id) g.byRelType :=
  outPhase_byRelType g v

theorem mid_incoming (g : KnowledgeGraph) (v : String) :
    (cascadeMid g v).incoming
      = (ainner g.outgoing v).foldl (fun m p => adelIn m p.2.target p.2.id) g.incoming :=
  outPhase_incoming g v

theorem mid_outgoing (g : KnowledgeGraph) (v : String) :
    (cascadeMid g v).outgoing = adel g.outgoing v := by
  show adel (cascadeOutPhase g v).outgoing v = _
  rw [outPhase_outgoing]

theorem inPhase_relationships (g : KnowledgeGraph) (v : String) :
    (cascadeInPhase g v).relationships
      = (ainner (cascadeMid g v).incoming v).foldl (fun m p => adel m p.2.id)
          (cascadeMid g v).relationships :=
  foldl_inStep_relationships _ _

theorem inPhase_byRelType (g : KnowledgeGraph) (v : String) :
    (cascadeInPhase g v).byRelType
      = (ainner (cascadeMid g v).incoming v).foldl
          (fun m p => adelIn m p.2.type p.2.id) (cascadeMid g v).byRelType :=
  foldl_inStep_byRelType _ _

theorem inPhase_outgoing (g : KnowledgeGraph) (v : String) :
    (cascadeInPhase g v).outgoing
      = (ainner (cascadeMid g v).incoming v).foldl
          (fun m p => adelIn m p.2.source p.2.id) (cascadeMid g v).outgoing :=
  foldl_inStep_outgoing _ _

theorem inPhase_incoming (g : KnowledgeGraph) (v : String) :
    (cascadeInPhase g v).incoming = (cascadeMid g v).incoming :=
  foldl_inStep_incoming _ _

theorem cascade_relationships (g : KnowledgeGraph) (v : String) :
    (cascadeRelationshipsForNode g v).relationships
      = (cascadeInPhase g v).relationships := rfl

theorem cascade_byRelType (g : KnowledgeGraph) (v : String) :
    (cascadeRelationshipsForNode g v).byRelType
      = (cascadeInPhase g v).byRelType := rfl

theorem cascade_outgoing (g : KnowledgeGraph) (v : String) :
    (cascadeRelationshipsForNode g v).outgoing
      = (cascadeInPhase g v).outgoing := rfl

theorem cascade_incoming (g : KnowledgeGraph) (v : String) :
    (cascadeRelationshipsForNode g v).incoming
      = adel (cascadeInPhase g v).incoming v := rfl

/-! ### The cascade removes every incident relationship -/

theorem cascade_no_incident (h : KnowledgeGraph) (v : String)
    (hWF : WFIndexes h) : NoIncidentRels (cascadeRelationshipsForNode h v) v := by
  obtain ⟨hndR, hndT, hndO, hndI, hRel, hOut, hIn, hTyp⟩ := hWF
  have hout0 : ∀ a ∈ ainner h.outgoing v, a.2.id = a.1 ∧ a.2.source = v ∧
      alookup h.relationships a.1 = some a.2 := by
    intro a ha
    unfold ainner at ha
    cases hl : alookup h.outgoing v with
    | none => rw [hl] at ha; simp at ha
    | some inner =>
      rw [hl, Option.getD_some] at ha
      exact hOut (v, inner) (alookup_mem hl) a ha
  have hrel_out : ∀ p : String × GraphRelationship, p ∈ h.relationships →
      p.2.source = v → p ∈ ainner h.outgoing v := by
    intro p hp hs
    have hmem := (hRel p hp).2.1
    rw [hs, Prod.mk.eta] at hmem
    exact hmem
  have hrel_in : ∀ p : String × GraphRelationship, p ∈ h.relationships →
      p.2.target = v → p ∈ ainner h.incoming v := by
    intro p hp ht
    have hmem := (hRel p hp).2.2
    rw [ht, Prod.mk.eta] at hmem
    exact hmem
  have hmid_inc : (cascadeMid h v).incoming
      = (ainner h.outgoing v).foldl (fun m p => adelIn m p.2.target p.2.id)
          h.incoming := mid_incoming h v
  have hin1 : ∀ p : String × GraphRelationship,
      p ∈ ainner (cascadeMid h v).incoming v ↔
        p ∈ ainner h.incoming v ∧
          ∀ a ∈ ainner h.outgoing v, a.2.target = v → p.1 ≠ a.2.id := by
    intro p
    rw [hmid_inc]
    have hfold := @ainner_foldl_adelIn GraphRelationship (String × GraphRelationship)
      (fun a => a.2.target) (fun a => a.2.id) v (ainner h.outgoing v) h.incoming
    rw [hfold]
    have hmemc := @mem_foldl_cond_adel GraphRelationship (String × GraphRelationship)
      (fun a => a.2.target) (fun a => a.2.id) v (ainner h.outgoing v)
      (ainner h.incoming v) p
    exact hmemc
  have hRelsurv : ∀ p : String × GraphRelationship,
      p ∈ (cascadeRelationshipsForNode h v).relationships →
        p ∈ h.relationships ∧ p.2.source ≠ v ∧ p.2.target ≠ v := by
    intro p hp
    rw [cascade_relationships, inPhase_relationships, mid_relationships] at hp
    have hmem1 := @mem_foldl_adel GraphRelationship (String × GraphRelationship)
      (fun a => a.2.id) (ainner (cascadeMid h v).incoming v)
      ((ainner h.outgoing v).foldl (fun m p => adel m p.2.id) h.relationships) p
    rcases hmem1.mp hp with ⟨hp1, hnotin1⟩
    have hmem2 := @mem_foldl_adel GraphRelationship (String × GraphRelationship)
      (fun a => a.2.id) (ainner h.outgoing v) h.relationships p
    rcases hmem2.mp hp1 with ⟨hpm, hnotout⟩
    refine ⟨hpm, ?_, ?_⟩
    · intro hs
      exact absurd (hRel p hpm).1.symm (hnotout p (hrel_out p hpm hs))
    · intro ht
      have hpin1 : p ∈ ainner (cascadeMid h v).incoming v := by
        rw [hin1 p]
        exact ⟨hrel_in p hpm ht, fun a ha _ => hnotout a ha⟩
      exact absurd (hRel p hpm).1.symm (hnotin1 p hpin1)
  refine ⟨?_, ?_, ?_, ?_⟩
  · intro p hp
    exact ⟨(hRelsurv p hp).2.1, (hRelsurv p hp).2.2⟩
  · intro q hq p hp
    rw [cascade_byRelType, inPhase_byRelType, mid_byRelType] at hq
    have hmem1 := @mem_foldl_adelIn GraphRelationship (String × GraphRelationship)
      (fun a => a.2.type) (fun a => a.2.id) (ainner (cascadeMid h v).incoming v)
      ((ainner h.outgoing v).foldl (fun m p => adelIn m p.2.type p.2.id) h.byRelType) q
    rcases hmem1 hq with ⟨q1, hq1, hkey1, hcond1⟩
    have hmem2 := @mem_foldl_adelIn GraphRelationship (String × GraphRelationship)
      (fun a => a.2.type) (fun a => a.2.id) (ainner h.outgoing v) h.byRelType q1
    rcases hmem2 hq1 with ⟨q0, hq0, hkey0, hcond0⟩
    rcases hcond1 p hp with ⟨hpq1, hdel1⟩
    rcases hcond0 p hpq1 with ⟨hpq0, hdel0⟩
    have hWFt := hTyp q0 hq0 p hpq0
    have hkeyq : q0.1 = q.1 := hkey0.trans hkey1
    constructor
    · intro hs
      have hpo := hrel_out (p.1, p.2) (alookup_mem hWFt.2.2) hs
      exact absurd hWFt.1.symm (hdel0 (p.1, p.2) hpo (hWFt.2.1.trans hkey0))
    · intro ht
      have hpi : (p.1, p.2) ∈ ainner (cascadeMid h v).incoming v := by
        rw [hin1 ((p.1, p.2))]
        refine ⟨hrel_in (p.1, p.2) (alookup_mem hWFt.2.2) ht, fun a ha hat => ?_⟩
        intro hpa
        have h1 := hout0 a ha
        have h4 : a.1 = p.1 := h1.1.symm.trans hpa.symm
        have h3 := h1.2.2
        rw [h4, hWFt.2.2] at h3
        injection h3 with h5
        have h6 : a.2.type = q1.1 := by
          rw [← h5]
          exact hWFt.2.1.trans hkey0
        exact absurd hpa (hdel0 a ha h6)
      exact absurd hWFt.1.symm (hdel1 (p.1, p.2) hpi (hWFt.2.1.trans hkeyq))
  · intro q hq p hp
    rw [cascade_outgoing, inPhase_outgoing, mid_outgoing] at hq
    have hmemIn := @mem_foldl_adelIn GraphRelationship (String × GraphRelationship)
      (fun a => a.2.source) (fun a => a.2.id) (ainner (cascadeMid h v).incoming v)
      (adel h.outgoing v) q
    rcases hmemIn hq with ⟨q0, hq0, hkey, hpcond⟩
    have hq0' := mem_adel.mp hq0
    rcases hpcond p hp with ⟨hpq0, hpdel⟩
    have hWFo := hOut q0 hq0'.1 p hpq0
    constructor
    · rw [hWFo.2.1]
      exact hq0'.2
    · intro ht
      have hpin : (p.1, p.2) ∈ ainner (cascadeMid h v).incoming v := by
        rw [hin1 ((p.1, p.2))]
        refine ⟨hrel_in (p.1, p.2) (alookup_mem hWFo.2.2) ht, fun a ha hat => ?_⟩
        intro hpa
        have h1 := hout0 a ha
        have h4 : a.1 = p.1 := h1.1.symm.trans hpa.symm
        have h3 := h1.2.2
        rw [h4, hWFo.2.2] at h3
        injection h3 with h5
        have h6 : p.2.source = v := by
          rw [h5]
          exact h1.2.1
        exact hq0'.2 (hWFo.2.1.symm.trans h6)
      exact absurd hWFo.1.symm (hpdel (p.1, p.2) hpin (hWFo.2.1.trans hkey))
  · intro q hq p hp
    rw [cascade_incoming] at hq
    have hq' := mem_adel.mp hq
    have hq2 := hq'.1
    rw [inPhase_incoming, hmid_inc] at hq2
    have hmemIn := @mem_foldl_adelIn GraphRelationship (String × GraphRelationship)
      (fun a => a.2.target) (fun a => a.2.id) (ainner h.outgoing v) h.incoming q
    rcases hmemIn hq2 with ⟨q0, hq0, hkey, hpcond⟩
    rcases hpcond p hp with ⟨hpq0, hpdel⟩
    have hWFi := hIn q0 hq0 p hpq0
    constructor
    · intro hs
      have hpo := hrel_out (p.1, p.2) (alookup_mem hWFi.2.2) hs
      exact absurd hWFi.1.symm (hpdel (p.1, p.2) hpo (hWFi.2.1.trans hkey))
    · rw [hWFi.2.1, hkey]
      exact hq'.2

/-- C2 (counterexample): `AddRelationship` does not validate endpoints,
so a reachable graph state can hold a relationship whose target `"v"`
is not a node; `RemoveNode("v")` is then an early-return no-op
(`false`), and the relationship with target `"v"` survives — the claim
quantified over *every* graph state and node ID. -/
theorem C2_counterexample :
    (removeNode (addRelationship newKnowledgeGraph (mkRel "r1" "calls" "a" "v")) "v").2
      = false ∧
    ((removeNode (addRelationship newKnowledgeGraph (mkRel "r1" "calls" "a" "v")) "v").1.relationships.map
        fun p => p.2.target) = ["v"] := by
  decide

/-- C2 (amended): on any index-coherent graph state, removing a node
that is present in the node map leaves no relationship with that node
as source or target in the primary relationship map, the type index,
or either adjacency index. -/
theorem C2_remove_node_cascade (g : KnowledgeGraph) (v : String) (node : GraphNode)
    (hWF : WFIndexes g) (hv : alookup g.nodes v = some node) :
    NoIncidentRels (removeNode g v).1 v := by
  unfold removeNode
  rw [hv]
  show NoIncidentRels (cascadeRelationshipsForNode
    { g with nodes := adel g.nodes v, byLabel := adelIn g.byLabel node.label v } v) v
  exact cascade_no_incident _ v hWF

/-- A small concrete graph for the C2 witness: nodes `a` and `v` and a
call relationship between them, built through the graph API. -/
def c2NodeA : GraphNode := mkNode "a" "function" "a" "a.go"

def c2NodeV : GraphNode := mkNode "v" "function" "v" "v.go"

def c2WG : KnowledgeGraph :=
  addRelationship (addNode (addNode newKnowledgeGraph c2NodeA) c2NodeV)
    (mkRel "r1" "calls" "a" "v")

/-- Witness for C2 on the concrete two-node graph. -/
theorem C2_witness :
    WFIndexes c2WG ∧ alookup c2WG.nodes "v" = some c2NodeV ∧
      NoIncidentRels (removeNode c2WG "v").1 "v" :=
  ⟨by unfold WFIndexes; decide, by decide,
    C2_remove_node_cascade c2WG "v" c2NodeV (by unfold WFIndexes; decide) (by decide)⟩

/-! ### The graph API maintains `WFIndexes`

These lemmas justify the invariant hypothesis of the cascade theorem:
every state built from the empty graph by `AddNode`/`AddRelationship`
satisfies it. -/

theorem wf_newKnowledgeGraph : WFIndexes newKnowledgeGraph := by
  unfold WFIndexes
  decide

theorem wf_of_fields_eq (g g' : KnowledgeGraph)
    (h1 : g'.relationships = g.relationships) (h2 : g'.byRelType = g.byRelType)
    (h3 : g'.outgoing = g.outgoing) (h4 : g'.incoming = g.incoming)
    (hWF : WFIndexes g) : WFIndexes g' := by
  unfold WFIndexes at hWF ⊢
  rw [h1, h2, h3, h4]
  exact hWF

theorem addNodeDeleteOld_relationships (g : KnowledgeGraph) (node : GraphNode) :
    (addNodeDeleteOld g node).relationships = g.relationships := by
  unfold addNodeDeleteOld
  split
  · split <;> rfl
  · rfl

theorem addNodeDeleteOld_byRelType (g : KnowledgeGraph) (node : GraphNode) :
    (addNodeDeleteOld g node).byRelType = g.byRelType := by
  unfold addNodeDeleteOld
  split
  · split <;> rfl
  · rfl

theorem addNodeDeleteOld_outgoing (g : KnowledgeGraph) (node : GraphNode) :
    (addNodeDeleteOld g node).outgoing = g.outgoing := by
  unfold addNodeDeleteOld
  split
  · split <;> rfl
  · rfl

theorem addNodeDeleteOld_incoming (g : KnowledgeGraph) (node : GraphNode) :
    (addNodeDeleteOld g node).incoming = g.incoming := by
  unfold addNodeDeleteOld
  split
  · split <;> rfl
  · rfl

/-- `AddNode` touches only the node map and label index, so it
preserves the relationship-index invariant. -/
theorem wf_addNode (g : KnowledgeGraph) (node : GraphNode) (hWF : WFIndexes g) :
    WFIndexes (addNode g node) :=
  wf_of_fields_eq g (addNode g node)
    (addNodeDeleteOld_relationships g node) (addNodeDeleteOld_byRelType g node)
    (addNodeDeleteOld_outgoing g node) (addNodeDeleteOld_incoming g node) hWF

theorem mem_aset_self {V : Type} (m : List (String × V)) (k : String) (v : V) :
    (k, v) ∈ aset m k v := by
  unfold aset
  by_cases ha : m.any (fun q => q.1 = k) = true
  · rw [if_pos ha]
    rcases List.any_eq_true.mp ha with ⟨q, hq, hqk⟩
    refine List.mem_map.mpr ⟨q, hq, ?_⟩
    rw [if_pos (of_decide_eq_true hqk)]
  · rw [if_neg ha]
    exact List.mem_append.mpr (Or.inr (List.mem_singleton.mpr rfl))

theorem mem_aset_ne {V : Type} {m : List (String × V)} {k : String} {v : V}
    {p : String × V} (hne : p.1 ≠ k) : p ∈ aset m k v ↔ p ∈ m := by
  unfold aset
  by_cases ha : m.any (fun q => q.1 = k) = true
  · rw [if_pos ha]
    constructor
    · intro hp
      rcases List.mem_map.mp hp with ⟨q, hq, heq⟩
      by_cases hqk : q.1 = k
      · rw [if_pos hqk] at heq
        have hpk : p.1 = k := by rw [← heq]
        exact absurd hpk hne
      · rw [if_neg hqk] at heq
        exact heq ▸ hq
    · intro hp
      refine List.mem_map.mpr ⟨p, hp, ?_⟩
      rw [if_neg hne]
  · rw [if_neg ha]
    constructor
    · intro hp
      rcases List.mem_append.mp hp with hh | hh
      · exact hh
      · rw [List.mem_singleton] at hh
        have hpk : p.1 = k := by rw [hh]
        exact absurd hpk hne
    · intro hp
      exact List.mem_append.mpr (Or.inl hp)

theorem mem_aset_eq {V : Type} {m : List (String × V)} {k : String} {v : V}
    {p : String × V} (hp : p ∈ aset m k v) (hk : p.1 = k) : p = (k, v) := by
  unfold aset at hp
  by_cases ha : m.any (fun q => q.1 = k) = true
  · rw [if_pos ha] at hp
    rcases List.mem_map.mp hp with ⟨q, hq, heq⟩
    by_cases hqk : q.1 = k
    · rw [if_pos hqk] at heq
      exact heq.symm
    · rw [if_neg hqk] at heq
      exact absurd (heq.symm ▸ hk) hqk
  · rw [if_neg ha] at hp
    rcases List.mem_append.mp hp with hh | hh
    · exact absurd (List.any_eq_true.mpr ⟨p, hh, decide_eq_true hk⟩) ha
    · exact List.mem_singleton.mp hh

theorem adelIn_keys {V : Type} (m : List (String × List (String × V)))
    (k ik : String) : (adelIn m k ik).map Prod.fst = m.map Prod.fst := by
  unfold adelIn
  rw [List.map_map]
  apply List.map_congr_left
  intro p hp
  show (if p.1 = k then (p.1, adel p.2 ik) else p).1 = p.1
  split <;> rfl

theorem ainner_asetIn_self {V : Type} (m : List (String × List (String × V)))
    (k ik : String) (v : V) :
    ainner (asetIn m k ik v) k = aset (ainner m k) ik v := by
  unfold asetIn ainner
  rw [alookup_aset_self, Option.getD_some]

theorem ainner_asetIn_ne {V : Type} (m : List (String × List (String × V)))
    (ik : String) (v : V) {k t : String} (h : k ≠ t) :
    ainner (asetIn m k ik v) t = ainner m t := by
  unfold asetIn ainner
  rw [alookup_aset_ne _ _ h]

theorem mem_ainner_adelIn_of {V : Type} {m : List (String × List (String × V))}
    {k ik t : String} {p : String × V} (hp : p ∈ ainner m t) (hne : p.1 ≠ ik) :
    p ∈ ainner (adelIn m k ik) t := by
  rw [ainner_adelIn]
  split
  · exact mem_adel.mpr ⟨hp, hne⟩
  · exact hp

theorem mem_ainner_asetIn_of {V : Type} {m : List (String × List (String × V))}
    {k ik t : String} {v : V} {p : String × V} (hp : p ∈ ainner m t)
    (hne : p.1 ≠ ik) : p ∈ ainner (asetIn m k ik v) t := by
  by_cases hk : k = t
  · subst hk
    rw [ainner_asetIn_self]
    exact (mem_aset_ne hne).mpr hp
  · rw [ainner_asetIn_ne _ _ _ hk]
    exact hp

/-- Inserting a relationship into a graph whose indexes differ from a
well-formed one only by dropping the entries keyed `rel.id` yields a
well-formed graph again. -/
theorem wf_addRel_aux (g g1 : KnowledgeGraph) (rel : GraphRelationship)
    (hWF : WFIndexes g)
    (hrels : g1.relationships = g.relationships)
    (hO1 : ∀ q ∈ g1.outgoing, ∃ q0 ∈ g.outgoing, q0.1 = q.1 ∧
      ∀ p ∈ q.2, p ∈ q0.2 ∧ p.1 ≠ rel.id)
    (hI1 : ∀ q ∈ g1.incoming, ∃ q0 ∈ g.incoming, q0.1 = q.1 ∧
      ∀ p ∈ q.2, p ∈ q0.2 ∧ p.1 ≠ rel.id)
    (hT1 : ∀ q ∈ g1.byRelType, ∃ q0 ∈ g.byRelType, q0.1 = q.1 ∧
      ∀ p ∈ q.2, p ∈ q0.2 ∧ p.1 ≠ rel.id)
    (hO2 : ∀ (t : String), ∀ p : String × GraphRelationship,
      p ∈ ainner g.outgoing t → p.1 ≠ rel.id → p ∈ ainner g1.outgoing t)
    (hI2 : ∀ (t : String), ∀ p : String × GraphRelationship,
      p ∈ ainner g.incoming t → p.1 ≠ rel.id → p ∈ ainner g1.incoming t)
    (hndT1 : (g1.byRelType.map Prod.fst).Nodup)
    (hndO1 : (g1.outgoing.map Prod.fst).Nodup)
    (hndI1 : (g1.incoming.map Prod.fst).Nodup) :
    WFIndexes (addRelInsert g1 rel) := by
  obtain ⟨hndR, hndT, hndO, hndI, hRel, hOut, hIn, hTyp⟩ := hWF
  have hndR1 : (g1.relationships.map Prod.fst).Nodup := by
    rw [hrels]
    exact hndR
  refine ⟨?_, ?_, ?_, ?_, ?_, ?_, ?_, ?_⟩
  · exact aset_keys_nodup _ _ hndR1
  · exact aset_keys_nodup _ _ hndT1
  · exact aset_keys_nodup _ _ hndO1
  · exact aset_keys_nodup _ _ hndI1
  · intro p hp
    by_cases hpk : p.1 = rel.id
    · have hpe : p = (rel.id, rel) := mem_aset_eq hp hpk
      cases hpe
      refine ⟨rfl, ?_, ?_⟩
      · have hm : ((rel.id, rel) : String × GraphRelationship)
            ∈ ainner (asetIn g1.outgoing rel.source rel.id rel) rel.source := by
          rw [ainner_asetIn_self]
          exact mem_aset_self _ _ _
        exact hm
      · have hm : ((rel.id, rel) : String × GraphRelationship)
            ∈ ainner (asetIn g1.incoming rel.target rel.id rel) rel.target := by
          rw [ainner_asetIn_self]
          exact mem_aset_self _ _ _
        exact hm
    · have hpm1 : p ∈ g1.relationships := (mem_aset_ne hpk).mp hp
      have hpm : p ∈ g.relationships := by
        rw [← hrels]
        exact hpm1
      have hw := hRel p hpm
      refine ⟨hw.1, ?_, ?_⟩
      · exact mem_ainner_asetIn_of (hO2 p.2.source (p.1, p.2) hw.2.1 hpk) hpk
      · exact mem_ainner_asetIn_of (hI2 p.2.target (p.1, p.2) hw.2.2 hpk) hpk
  · intro q hq p hp
    have hq' : q ∈ aset g1.outgoing rel.source
        (aset (ainner g1.outgoing rel.source) rel.id rel) := hq
    by_cases hqk : q.1 = rel.source
    · have hqe : q = (rel.source, aset (ainner g1.outgoing rel.source) rel.id rel) :=
        mem_aset_eq hq' hqk
      cases hqe
      have hp' : p ∈ aset (ainner g1.outgoing rel.source) rel.id rel := hp
      by_cases hpk : p.1 = rel.id
      · have hpe : p = (rel.id, rel) := mem_aset_eq hp' hpk
        cases hpe
        exact ⟨rfl, rfl, alookup_aset_self _ _ _⟩
      · have hp2 : p ∈ ainner g1.outgoing rel.source := (mem_aset_ne hpk).mp hp'
        have hex : ∃ inner, alookup g1.outgoing rel.source = some inner ∧ p ∈ inner := by
          unfold ainner at hp2
          cases hl : alookup g1.outgoing rel.source with
          | none => rw [hl] at hp2; simp at hp2
          | some inner =>
            rw [hl, Option.getD_some] at hp2
            exact ⟨inner, rfl, hp2⟩
        rcases hex with ⟨inner, hl, hpin⟩
        rcases hO1 (rel.source, inner) (alookup_mem hl) with ⟨q0, hq0, hkey, hpc⟩
        rcases hpc p hpin with ⟨hpq0, hpne⟩
        have hw := hOut q0 hq0 p hpq0
        refine ⟨hw.1, hw.2.1.trans hkey, ?_⟩
        show alookup (aset g1.relationships rel.id rel) p.1 = some p.2
        rw [alookup_aset_ne _ _ (fun hh => hpne hh.symm), hrels]
        exact hw.2.2
    · have hq2 : q ∈ g1.outgoing := (mem_aset_ne hqk).mp hq'
      rcases hO1 q hq2 with ⟨q0, hq0, hkey, hpc⟩
      rcases hpc p hp with ⟨hpq0, hpne⟩
      have hw := hOut q0 hq0 p hpq0
      refine ⟨hw.1, hw.2.1.trans hkey, ?_⟩
      show alookup (aset g1.relationships rel.id rel) p.1 = some p.2
      rw [alookup_aset_ne _ _ (fun hh => hpne hh.symm), hrels]
      exact hw.2.2
  · intro q hq p hp
    have hq' : q ∈ aset g1.incoming rel.target
        (aset (ainner g1.incoming rel.target) rel.id rel) := hq
    by_cases hqk : q.1 = rel.target
    · have hqe : q = (rel.target, aset (ainner g1.incoming rel.target) rel.id rel) :=
        mem_aset_eq hq' hqk
      cases hqe
      have hp' : p ∈ aset (ainner g1.incoming rel.target) rel.id rel := hp
      by_cases hpk : p.1 = rel.id
      · have hpe : p = (rel.id, rel) := mem_aset_eq hp' hpk
        cases hpe
        exact ⟨rfl, rfl, alookup_aset_self _ _ _⟩
      · have hp2 : p ∈ ainner g1.incoming rel.target := (mem_aset_ne hpk).mp hp'
        have hex : ∃ inner, alookup g1.incoming rel.target = some inner ∧ p ∈ inner := by
          unfold ainner at hp2
          cases hl : alookup g1.incoming rel.target with
          | none => rw [hl] at hp2; simp at hp2
          | some inner =>
            rw [hl, Option.getD_some] at hp2
            exact ⟨inner, rfl, hp2⟩
        rcases hex with ⟨inner, hl, hpin⟩
        rcases hI1 (rel.target, inner) (alookup_mem hl) with ⟨q0, hq0, hkey, hpc⟩
        rcases hpc p hpin with ⟨hpq0, hpne⟩
        have hw := hIn q0 hq0 p hpq0
        refine ⟨hw.1, hw.2.1.trans hkey, ?_⟩
        show alookup (aset g1.relationships rel.id rel) p.1 = some p.2
        rw [alookup_aset_ne _ _ (fun hh => hpne hh.symm), hrels]
        exact hw.2.2
    · have hq2 : q ∈ g1.incoming := (mem_aset_ne hqk).mp hq'
      rcases hI1 q hq2 with ⟨q0, hq0, hkey, hpc⟩
      rcases hpc p hp with ⟨hpq0, hpne⟩
      have hw := hIn q0 hq0 p hpq0
      refine ⟨hw.1, hw.2.1.trans hkey, ?_⟩
      show alookup (aset g1.relationships rel.id rel) p.1 = some p.2
      rw [alookup_aset_ne _ _ (fun hh => hpne hh.symm), hrels]
      exact hw.2.2
  · intro q hq p hp
    have hq' : q ∈ aset g1.byRelType rel.type
        (aset (ainner g1.byRelType rel.type) rel.id rel) := hq
    by_cases hqk : q.1 = rel.type
    · have hqe : q = (rel.type, aset (ainner g1.byRelType rel.type) rel.id rel) :=
        mem_aset_eq hq' hqk
      cases hqe
      have hp' : p ∈ aset (ainner g1.byRelType rel.type) rel.id rel := hp
      by_cases hpk : p.1 = rel.id
      · have hpe : p = (rel.id, rel) := mem_aset_eq hp' hpk
        cases hpe
        exact ⟨rfl, rfl, alookup_aset_self _ _ _⟩
      · have hp2 : p ∈ ainner g1.byRelType rel.type := (mem_aset_ne hpk).mp hp'
        have hex : ∃ inner, alookup g1.byRelType rel.type = some inner ∧ p ∈ inner := by
          unfold ainner at hp2
          cases hl : alookup g1.byRelType rel.type with
          | none => rw [hl] at hp2; simp at hp2
          | some inner =>
            rw [hl, Option.getD_some] at hp2
            exact ⟨inner, rfl, hp2⟩
        rcases hex with ⟨inner, hl, hpin⟩
        rcases hT1 (rel.type, inner) (alookup_mem hl) with ⟨q0, hq0, hkey, hpc⟩
        rcases hpc p hpin with ⟨hpq0, hpne⟩
        have hw := hTyp q0 hq0 p hpq0
        refine ⟨hw.1, hw.2.1.trans hkey, ?_⟩
        show alookup (aset g1.relationships rel.id rel) p.1 = some p.2
        rw [alookup_aset_ne _ _ (fun hh => hpne hh.symm), hrels]
        exact hw.2.2
    · have hq2 : q ∈ g1.byRelType := (mem_aset_ne hqk).mp hq'
      rcases hT1 q hq2 with ⟨q0, hq0, hkey, hpc⟩
      rcases hpc p hp with ⟨hpq0, hpne⟩
      have hw := hTyp q0 hq0 p hpq0
      refine ⟨hw.1, hw.2.1.trans hkey, ?_⟩
      show alookup (aset g1.relationships rel.id rel) p.1 = some p.2
      rw [alookup_aset_ne _ _ (fun hh => hpne hh.symm), hrels]
      exact hw.2.2

/-- `AddRelationship` preserves the index invariant. -/
theorem wf_addRelationship (g : KnowledgeGraph) (rel : GraphRelationship)
    (hWF : WFIndexes g) : WFIndexes (addRelationship g rel) := by
  obtain ⟨hndR, hndT, hndO, hndI, hRel, hOut, hIn, hTyp⟩ := hWF
  unfold addRelationship
  cases hold : alookup g.relationships rel.id with
  | none =>
    have hg1 : addRelDeleteOld g rel = g := by
      unfold addRelDeleteOld
      rw [hold]
    rw [hg1]
    refine wf_addRel_aux g g rel ⟨hndR, hndT, hndO, hndI, hRel, hOut, hIn, hTyp⟩ rfl
      ?_ ?_ ?_ (fun t p hp _ => hp) (fun t p hp _ => hp) hndT hndO hndI
    · intro q hq
      refine ⟨q, hq, rfl, fun p hp => ⟨hp, fun hpk => ?_⟩⟩
      have h2 := (hOut q hq p hp).2.2
      rw [hpk, hold] at h2
      exact Option.noConfusion h2
    · intro q hq
      refine ⟨q, hq, rfl, fun p hp => ⟨hp, fun hpk => ?_⟩⟩
      have h2 := (hIn q hq p hp).2.2
      rw [hpk, hold] at h2
      exact Option.noConfusion h2
    · intro q hq
      refine ⟨q, hq, rfl, fun p hp => ⟨hp, fun hpk => ?_⟩⟩
      have h2 := (hTyp q hq p hp).2.2
      rw [hpk, hold] at h2
      exact Option.noConfusion h2
  | some old =>
    have hg1 : addRelDeleteOld g rel
        = { g with byRelType := adelIn g.byRelType old.type rel.id,
                   outgoing := adelIn g.outgoing old.source rel.id,
                   incoming := adelIn g.incoming old.target rel.id } := by
      unfold addRelDeleteOld
      rw [hold]
    rw [hg1]
    refine wf_addRel_aux g _ rel ⟨hndR, hndT, hndO, hndI, hRel, hOut, hIn, hTyp⟩ rfl
      ?_ ?_ ?_ ?_ ?_ ?_ ?_ ?_
    · intro q hq
      rcases mem_adelIn hq with ⟨q0, hq0, hkey, hpc⟩
      refine ⟨q0, hq0, hkey, fun p hp => ?_⟩
      rcases hpc p hp with ⟨hpq0, hcond⟩
      refine ⟨hpq0, fun hpk => ?_⟩
      have hw := hOut q0 hq0 p hpq0
      have h2 := hw.2.2
      rw [hpk, hold] at h2
      injection h2 with h3
      refine hcond ?_ hpk
      rw [h3]
      exact hw.2.1.trans hkey
    · intro q hq
      rcases mem_adelIn hq with ⟨q0, hq0, hkey, hpc⟩
      refine ⟨q0, hq0, hkey, fun p hp => ?_⟩
      rcases hpc p hp with ⟨hpq0, hcond⟩
      refine ⟨hpq0, fun hpk => ?_⟩
      have hw := hIn q0 hq0 p hpq0
      have h2 := hw.2.2
      rw [hpk, hold] at h2
      injection h2 with h3
      refine hcond ?_ hpk
      rw [h3]
      exact hw.2.1.trans hkey
    · intro q hq
      rcases mem_adelIn hq with ⟨q0, hq0, hkey, hpc⟩
      refine ⟨q0, hq0, hkey, fun p hp => ?_⟩
      rcases hpc p hp with ⟨hpq0, hcond⟩
      refine ⟨hpq0, fun hpk => ?_⟩
      have hw := hTyp q0 hq0 p hpq0
      have h2 := hw.2.2
      rw [hpk, hold] at h2
      injection h2 with h3
      refine hcond ?_ hpk
      rw [h3]
      exact hw.2.1.trans hkey
    · exact fun t p hp hne => mem_ainner_adelIn_of hp hne
    · exact fun t p hp hne => mem_ainner_adelIn_of hp hne
    · show ((adelIn g.byRelType old.type rel.id).map Prod.fst).Nodup
      rw [adelIn_keys]
      exact hndT
    · show ((adelIn g.outgoing old.source rel.id).map Prod.fst).Nodup
      rw [adelIn_keys]
      exact hndO
    · show ((adelIn g.incoming old.target rel.id).map Prod.fst).Nodup
      rw [adelIn_keys]
      exact hndI

end Axon
